import Mathlib

/-!
Verification of the headlessui transition coordinator and dialog components.

The dialog guard predicates and overlay click handling are embedded directly
from `packages/@headlessui-react/src/components/dialog/dialog.tsx` and
`packages/@headlessui-vue/src/components/dialog/dialog.ts`.

The transition coordinator itself (`transition.tsx`) is not part of the
source snapshot; only its test file is.  Its data model and algorithms are
therefore modelled from the specification (tree-scoped registration,
pre/post-order dispatch, completion gating with `pendingChildren`,
stable tie-breaking by traversal order, render strategies, the appear gate,
the zero-duration completion detector and the misuse errors), and the
expected behaviours are proved against that model.
-/

namespace ReactDialog

/-- From dialog.tsx line 202: `enabled = ready ? (demoMode ? false : dialogState === Open) : false`. -/
def enabledFlag (ready demoMode dialogStateOpen : Bool) : Bool :=
  if ready then (if demoMode then false else dialogStateOpen) else false

/-- From dialog.tsx lines 219-224: nested dialogs must not modify `inert`;
a closing dialog must not either; otherwise follow `enabled`. -/
def inertOthersEnabled (hasParentDialog isClosing enabled : Bool) : Bool :=
  if hasParentDialog then false
  else if isClosing then false
  else enabled

/-- From dialog.tsx lines 273-277: escape-to-close guard. -/
def escapeToCloseEnabled (hasNestedDialogs dialogStateOpen : Bool) : Bool :=
  if hasNestedDialogs then false
  else if !dialogStateOpen then false
  else true

/-- From dialog.tsx lines 288-293: scroll-lock guard. -/
def scrollLockEnabled (isClosing dialogStateOpen hasParentDialog : Bool) : Bool :=
  if isClosing then false
  else if !dialogStateOpen then false
  else if hasParentDialog then false
  else true

/-- Outcome of a mouse event handler: which event methods were called and
how many times `close()` ran. -/
structure ClickOutcome where
  defaultPrevented : Bool
  propagationStopped : Bool
  closeCalls : Nat
deriving DecidableEq

/-- A click event as the overlay handler observes it: whether
`event.target === event.currentTarget`, and whether the current target is
disabled (the `isDisabledReactIssue7711` check). -/
structure ClickEvent where
  targetIsCurrentTarget : Bool
  currentTargetDisabled : Bool

/-- From dialog.tsx lines 415-421 (`Overlay.handleClick`). -/
def overlayHandleClick (ev : ClickEvent) : ClickOutcome :=
  if !ev.targetIsCurrentTarget then ⟨false, false, 0⟩
  else if ev.currentTargetDisabled then ⟨true, false, 0⟩
  else ⟨true, true, 1⟩

end ReactDialog

namespace VueDialog

/-- From dialog.ts lines 123-126: `dialogState` is `Closed` until mounted,
then follows `open`; `enabled` is `dialogState === Open`. -/
def enabledFlag (ready dialogStateOpen : Bool) : Bool :=
  if !ready then false else dialogStateOpen

/-- From dialog.ts lines 147-152. -/
def inertOthersEnabled (hasParentDialog isClosing enabled : Bool) : Bool :=
  if hasParentDialog then false
  else if isClosing then false
  else enabled

/-- From dialog.ts lines 251-255. -/
def escapeToCloseEnabled (hasNestedDialogs dialogStateOpen : Bool) : Bool :=
  if hasNestedDialogs then false
  else if !dialogStateOpen then false
  else true

/-- From dialog.ts lines 267-272. -/
def scrollLockEnabled (isClosing dialogStateOpen hasParentDialog : Bool) : Bool :=
  if isClosing then false
  else if !dialogStateOpen then false
  else if hasParentDialog then false
  else true

/-- From dialog.ts lines 365-370 (`DialogOverlay.handleClick`); unlike the
React version there is no disabled check. -/
def overlayHandleClick (ev : ReactDialog.ClickEvent) : ReactDialog.ClickOutcome :=
  if !ev.targetIsCurrentTarget then ⟨false, false, 0⟩
  else ⟨true, true, 1⟩

end VueDialog

namespace TransitionModel

/-- Modelled from the spec: the two directions of a transition scope
(`transition.tsx` is not in the source snapshot). -/
inductive Direction where
  | enter
  | leave
deriving DecidableEq

/-- Modelled from the spec: the four lifecycle hooks of a transition node. -/
inductive HookKind where
  | beforeEnter
  | afterEnter
  | beforeLeave
  | afterLeave
deriving DecidableEq

def beforeHookFor : Direction → HookKind
  | .enter => .beforeEnter
  | .leave => .beforeLeave

def afterHookFor : Direction → HookKind
  | .enter => .afterEnter
  | .leave => .afterLeave

def hookDirection : HookKind → Direction
  | .beforeEnter => .enter
  | .afterEnter => .enter
  | .beforeLeave => .leave
  | .afterLeave => .leave

/-- Modelled from the spec: one registered transition node of a scope.
`parent` is the index of its parent node in the registration list (`none`
for the scope root); `dur` is the measured duration of the node's own
transition for the current direction. -/
structure TransitionNode where
  parent : Option Nat
  dur : Nat
deriving DecidableEq

/-- Modelled from the spec: a Coordinator scope is its list of registered
nodes, in registration order; children always register after their parent. -/
abbrev Scope := List TransitionNode

def parentAt (s : Scope) (i : Nat) : Option Nat :=
  match s.get? i with
  | some n => n.parent
  | none => none

def durAt (s : Scope) (i : Nat) : Nat :=
  match s.get? i with
  | some n => n.dur
  | none => 0

/-- The registration graph is a strict tree mirroring the nesting at
registration time: every node's parent registered before it. -/
def wellFormed (s : Scope) : Bool :=
  (List.range s.length).all fun i =>
    match parentAt s i with
    | some p => decide (p < i)
    | none => true

/-- Direct children of node `i`, in registration order. -/
def childrenIdx (s : Scope) (i : Nat) : List Nat :=
  (List.range s.length).filter fun j => parentAt s j == some i

/-- Scope roots, in registration order. -/
def rootsIdx (s : Scope) : List Nat :=
  (List.range s.length).filter fun i => (parentAt s i).isNone

/-- Modelled from the spec: the traversal of one node's subtree.  With
`pre = true` the node itself is visited before its children (pre-order,
used for Enter); with `pre = false` after them (post-order, used for Leave
hook dispatch).  `fuel` bounds the recursion depth. -/
def subtreeList (s : Scope) (pre : Bool) : Nat → Nat → List Nat
  | 0, _ => []
  | fuel + 1, i =>
    let blocks := ((childrenIdx s i).map (subtreeList s pre fuel)).flatten
    if pre then i :: blocks else blocks ++ [i]

/-- Modelled from the spec: the hook-dispatch order over the whole scope. -/
def travOrder (s : Scope) (pre : Bool) : List Nat :=
  ((rootsIdx s).map (subtreeList s pre s.length)).flatten

/-- Modelled from the spec: Enter broadcasts dispatch `before*` hooks in
pre-order, Leave broadcasts in post-order. -/
def dispatchOrder (s : Scope) : Direction → List Nat
  | .enter => travOrder s true
  | .leave => travOrder s false

/-- Insert an own-completion event `(node, time)` after every event with an
earlier-or-equal time, so that sorting is stable: ties keep traversal
order, as the spec requires. -/
def insertByTime (e : Nat × Nat) : List (Nat × Nat) → List (Nat × Nat)
  | [] => [e]
  | x :: xs => if x.2 ≤ e.2 then x :: insertByTime e xs else e :: x :: xs

def sortByTime : List (Nat × Nat) → List (Nat × Nat)
  | [] => []
  | e :: xs => insertByTime e (sortByTime xs)

/-- Modelled from the spec: the own-completion events of one
direction-cycle.  Each node's completion detector reports at the node's own
measured duration; simultaneous completions are ordered by traversal
order. -/
def completionEvents (s : Scope) (dir : Direction) : List (Nat × Nat) :=
  sortByTime ((dispatchOrder s dir).map fun i => (i, durAt s i))

/-- Modelled from the spec: per-node completion bookkeeping of a
direction-cycle: whether `markOwnTransitionDone()` has fired, and whether
the node's `after*` hook has fired. -/
structure SimState where
  ownDone : Nat → Bool
  fired : Nat → Bool

def initState : SimState := ⟨fun _ => false, fun _ => false⟩

def setFlag (f : Nat → Bool) (i : Nat) : Nat → Bool :=
  fun j => if j = i then true else f j

/-- Count of direct children that have not yet reported complete. -/
def pendingChildren (s : Scope) (st : SimState) (i : Nat) : Nat :=
  ((childrenIdx s i).filter fun j => !(st.fired j)).length

def markOwnTransitionDone (st : SimState) (i : Nat) : SimState :=
  { st with ownDone := setFlag st.ownDone i }

/-- The completion gate of the spec: a node may fire its `after*` hook only
once, and only when its own transition is done and `pendingChildren = 0`. -/
def eligible (s : Scope) (st : SimState) (i : Nat) : Bool :=
  !(st.fired i) && st.ownDone i && decide (pendingChildren s st i = 0)

/-- Modelled from the spec: firing a node's `after*` hook reports completion
to its parent, which may in turn become eligible and fire — the upward
cascade of `reportChildDone()`.  Returns the updated bookkeeping and the
`(node, timestamp)` log of hooks fired by this cascade, deepest node
first. -/
def reportUp (s : Scope) (t : Nat) : Nat → SimState → Nat → SimState × List (Nat × Nat)
  | 0, st, _ => (st, [])
  | fuel + 1, st, i =>
    if eligible s st i then
      let st1 : SimState := { st with fired := setFlag st.fired i }
      match parentAt s i with
      | some p =>
        let r := reportUp s t fuel st1 p
        (r.1, (i, t) :: r.2)
      | none => (st1, [(i, t)])
    else (st, [])

/-- Process one own-completion event: invoke `markOwnTransitionDone()` on
the node and let completion bubble upward. -/
def processEvent (s : Scope) (st : SimState) (e : Nat × Nat) : SimState × List (Nat × Nat) :=
  reportUp s e.2 s.length (markOwnTransitionDone st e.1) e.1

/-- The `(node, timestamp)` log of `after*` hooks fired while processing the
given own-completion events in order. -/
def runEvents (s : Scope) : List (Nat × Nat) → SimState → List (Nat × Nat)
  | [], _ => []
  | e :: evs, st =>
    let r := processEvent s st e
    r.2 ++ runEvents s evs r.1

def endState (s : Scope) : List (Nat × Nat) → SimState → SimState
  | [], st => st
  | e :: evs, st => endState s evs (processEvent s st e).1

/-- The full `after*` hook log of one uninterrupted direction-cycle. -/
def afterEvents (s : Scope) (dir : Direction) : List (Nat × Nat) :=
  runEvents s (completionEvents s dir) initState

/-- One fired hook of a direction-cycle as it appears in the global log. -/
structure HookEvent where
  node : Nat
  hook : HookKind
  time : Nat
deriving DecidableEq

/-- Modelled from the spec: a direction flip at time `T` aborts the
outstanding completion waits, so only own-completion events up to `T` are
processed; hooks for the abandoned direction that had not yet fired are
dropped. -/
def cycleAfterEvents (s : Scope) (dir : Direction) (cutoff : Option Nat) : List (Nat × Nat) :=
  match cutoff with
  | none => runEvents s (completionEvents s dir) initState
  | some T => runEvents s ((completionEvents s dir).takeWhile fun e => e.2 ≤ T) initState

/-- Modelled from the spec: the complete hook log of one direction-cycle:
the broadcast dispatches every node's `before*` hook synchronously at the
start, then `after*` hooks fire as gated completions arrive (possibly cut
short by a direction flip at `cutoff`). -/
def cycleLog (s : Scope) (dir : Direction) (cutoff : Option Nat) : List HookEvent :=
  ((dispatchOrder s dir).map fun i => ⟨i, beforeHookFor dir, 0⟩)
    ++ ((cycleAfterEvents s dir cutoff).map fun e => ⟨e.1, afterHookFor dir, e.2⟩)

/-- The 5-node tree of the acceptance scenario, in registration order:
index 0 = root (50ms), 1 = child-1 (75ms), 2 = child-2 (100ms),
3 = child-2-1 (150ms), 4 = child-2-2 (125ms). -/
def scenarioScope : Scope :=
  [⟨none, 50⟩, ⟨some 0, 75⟩, ⟨some 0, 100⟩, ⟨some 2, 150⟩, ⟨some 2, 125⟩]

end TransitionModel

namespace TransitionModel

/-- Modelled from the spec: a node's stage. -/
inductive Stage where
  | idle
  | entering
  | entered
  | leaving
  | left
deriving DecidableEq

/-- Modelled from the spec: what happens to a node once it reaches `Left`. -/
inductive RenderStrategy where
  | unmountStrategy
  | hiddenStrategy
deriving DecidableEq

/-- The host-visible situation of one node: whether it is registered with
its Coordinator, how often it registered, its stage, and the hidden styling
(`hidden` attribute and `display: none`) applied by the Hidden strategy. -/
structure NodeView where
  registered : Bool
  registrationCount : Nat
  stage : Stage
  hiddenAttr : Bool
  displayNone : Bool
deriving DecidableEq

/-- Modelled from the spec: what happens when the scope settles a Leave.
With `Unmount` the host removes the subtree (the node unregisters); with
`Hidden` the node remains registered, is marked visually hidden and stays
in `Left`. -/
def applyLeaveSettled (strategy : RenderStrategy) (v : NodeView) : NodeView :=
  match strategy with
  | .unmountStrategy => { v with registered := false, stage := .left }
  | .hiddenStrategy => { v with stage := .left, hiddenAttr := true, displayNone := true }

/-- Modelled from the spec: `startEnter()` on a retained node: the node
re-enters `Entering` and the hidden styling is removed; no re-registration
happens. -/
def startEnterView (v : NodeView) : NodeView :=
  { v with stage := .entering, hiddenAttr := false, displayNone := false }

/-- Result of the very first mount of a node that is already shown. -/
structure MountResult where
  stage : Stage
  classes : List String
  hooksFired : List HookKind
deriving DecidableEq

/-- Modelled from the spec: first registration already in the shown state.
With `appearOnMount = true` an initial Entering pass runs: the `before*`
hook fires and the enter/enterFrom start classes are applied.  With
`appearOnMount = false` the gate blocks the very first Enter and the node
jumps straight to `Entered` with no class mutation and no hook firing. -/
def initialShownMount (appearOnMount : Bool) (enter enterFrom : List String) : MountResult :=
  if appearOnMount then
    { stage := .entering, classes := enter ++ enterFrom, hooksFired := [.beforeEnter] }
  else
    { stage := .entered, classes := [], hooksFired := [] }

/-- Modelled from the spec: how the completion detector resolves. -/
inductive DetectorResolution where
  | immediate
  | waitForSignalOrTimeout
deriving DecidableEq

/-- Modelled from the spec: if the computed duration is `0`, the detector
resolves immediately and synchronously; otherwise it waits for the native
completion signal with a timeout fallback. -/
def detectorResolution (computedDuration : Nat) : DetectorResolution :=
  if computedDuration = 0 then .immediate else .waitForSignalOrTimeout

/-- Modelled from the spec (message taken from the test file): mounting a
`Transition.Child` without an enclosing scope throws synchronously. -/
def missingParentMessage : String :=
  "A <Transition.Child /> is used but it is missing a parent <Transition /> or <Transition.Root />."

/-- Modelled from the spec (message taken from the test file): rendering a
`Transition` without the required `show` configuration throws
synchronously. -/
def missingShowMessage : String :=
  "A <Transition /> is used but it is missing a `show=\x7btrue | false\x7d` prop."

/-- Modelled from the spec: a `Transition.Child` must resolve an enclosing
scope handle; a missing scope is a synchronous misuse error. -/
def renderTransitionChild (parentScope : Option Nat) : Except String Nat :=
  match parentScope with
  | none => .error missingParentMessage
  | some scope => .ok scope

/-- Modelled from the spec: a `Transition` root must be configured with
`show`; a missing `show` is a synchronous misuse error. -/
def renderTransitionRoot (showConfig : Option Bool) : Except String Bool :=
  match showConfig with
  | none => .error missingShowMessage
  | some b => .ok b

/-- `j` lies in the subtree rooted at `i` (the parent chain of `j` passes
through `i`). -/
inductive Reaches (s : Scope) : Nat → Nat → Prop where
  | refl (i : Nat) : Reaches s i i
  | step {i p j : Nat} : parentAt s j = some p → Reaches s i p → Reaches s i j

/-- The invariant tying the completion bookkeeping to the `after*` hook log:
hooks fire at most once, only for completed nodes whose children have all
fired, in a bottom-up order with non-decreasing gated timestamps. -/
structure SimInv (s : Scope) (st : SimState) (log : List (Nat × Nat)) : Prop where
  fired_ownDone : ∀ k, st.fired k = true → st.ownDone k = true
  gate : ∀ k, st.fired k = true → ∀ j ∈ childrenIdx s k, st.fired j = true
  noEligible : ∀ k, st.fired k = false → st.ownDone k = true →
    pendingChildren s st k ≠ 0
  fired_iff : ∀ k, st.fired k = true ↔ k ∈ log.map Prod.fst
  nodupLog : (log.map Prod.fst).Nodup
  gateLogIdx : ∀ e ∈ log, ∀ j ∈ childrenIdx s e.1,
    (log.map Prod.fst).indexOf j < (log.map Prod.fst).indexOf e.1
  durLe : ∀ e ∈ log, durAt s e.1 ≤ e.2
  timeMono : List.Pairwise (fun a b : Nat × Nat => a.2 ≤ b.2) log
  childTime : ∀ e ∈ log, ∀ j ∈ childrenIdx s e.1, ∃ u, (j, u) ∈ log ∧ u ≤ e.2
  leafLogged : ∀ k, st.ownDone k = true → childrenIdx s k = [] →
    (k, durAt s k) ∈ log
  timeOrigin : ∀ e ∈ log, ∃ k, k < s.length ∧ e.2 = durAt s k

/-- Number of hook-log entries of node `i` with hook kind `k`. -/
def hookOccurrences (log : List HookEvent) (i : Nat) (k : HookKind) : Nat :=
  (log.filter fun ev => ev.node == i && ev.hook == k).length

/-- The completion-gating property of one direction-cycle: every node fires
its `after*` hook exactly once; never before its own transition completed;
only after all of its children (hence, inductively, all descendants); its
timestamp dominates every descendant timestamp; and a childless node fires
exactly at its own completion time. -/
def completionGatingSpec (s : Scope) (dir : Direction) : Prop :=
  (∀ i, i < s.length → ∃ u, (i, u) ∈ afterEvents s dir) ∧
  ((afterEvents s dir).map Prod.fst).Nodup ∧
  (∀ e ∈ afterEvents s dir, durAt s e.1 ≤ e.2) ∧
  (∀ e ∈ afterEvents s dir, ∀ j ∈ childrenIdx s e.1,
    ((afterEvents s dir).map Prod.fst).indexOf j
      < ((afterEvents s dir).map Prod.fst).indexOf e.1) ∧
  (∀ e ∈ afterEvents s dir, ∀ j u, (j, u) ∈ afterEvents s dir →
    Reaches s e.1 j → u ≤ e.2) ∧
  (∀ i, i < s.length → childrenIdx s i = [] → (i, durAt s i) ∈ afterEvents s dir)

/-- The per-cycle hook discipline: each hook fires at most once per
direction-cycle; a cycle only ever emits hooks of its own direction; and a
flip at time `T` only drops not-yet-fired hooks — the hooks fired before
the flip are exactly a prefix of the uninterrupted cycle's log, and every
dropped hook would have fired strictly after `T`. -/
def interruptionSafeSpec (s : Scope) (dir : Direction) (cutoff : Option Nat) : Prop :=
  (∀ i k, hookOccurrences (cycleLog s dir cutoff) i k ≤ 1) ∧
  (∀ ev ∈ cycleLog s dir cutoff, hookDirection ev.hook = dir) ∧
  (∀ T, ∃ rest, cycleLog s dir none = cycleLog s dir (some T) ++ rest ∧
    ∀ ev ∈ rest, T < ev.time)

/-- Zero-duration behaviour: the completion detector resolves immediately,
every `after*` hook carries timestamp `0` (the same dispatch pass), every
node still fires, and the bottom-up firing order is preserved. -/
def zeroDurationSpec (s : Scope) (dir : Direction) : Prop :=
  (∀ i, i < s.length → detectorResolution (durAt s i) = DetectorResolution.immediate) ∧
  (∀ e ∈ afterEvents s dir, e.2 = 0) ∧
  (∀ i, i < s.length → (i, 0) ∈ afterEvents s dir) ∧
  (∀ e ∈ afterEvents s dir, ∀ j ∈ childrenIdx s e.1,
    ((afterEvents s dir).map Prod.fst).indexOf j
      < ((afterEvents s dir).map Prod.fst).indexOf e.1)

/-- A two-node parent/child scope in which every transition has duration
zero. -/
def zeroScope : Scope := [⟨none, 0⟩, ⟨some 0, 0⟩]

/-- What the Hidden render strategy guarantees for a node that completes a
full Leave and is then re-entered: it stays registered (no re-registration),
rests hidden in `Left`, and the next Enter re-runs the transition and
removes the hidden styling. -/
def hiddenRetentionSpec (v : NodeView) : Prop :=
  (applyLeaveSettled RenderStrategy.hiddenStrategy v).registered = true ∧
  (applyLeaveSettled RenderStrategy.hiddenStrategy v).stage = Stage.left ∧
  (applyLeaveSettled RenderStrategy.hiddenStrategy v).hiddenAttr = true ∧
  (applyLeaveSettled RenderStrategy.hiddenStrategy v).displayNone = true ∧
  (applyLeaveSettled RenderStrategy.hiddenStrategy v).registrationCount
    = v.registrationCount ∧
  (startEnterView (applyLeaveSettled RenderStrategy.hiddenStrategy v)).registered = true ∧
  (startEnterView (applyLeaveSettled RenderStrategy.hiddenStrategy v)).stage
    = Stage.entering ∧
  (startEnterView (applyLeaveSettled RenderStrategy.hiddenStrategy v)).hiddenAttr = false ∧
  (startEnterView (applyLeaveSettled RenderStrategy.hiddenStrategy v)).displayNone = false ∧
  (startEnterView (applyLeaveSettled RenderStrategy.hiddenStrategy v)).registrationCount
    = v.registrationCount

end TransitionModel

namespace TransitionModel

theorem parentAt_lt_length {s : Scope} {i p : Nat} (h : parentAt s i = some p) :
    i < s.length := by
  by_contra hn
  have hnone : s.get? i = none := List.get?_eq_none.mpr (Nat.le_of_not_lt hn)
  simp only [parentAt, hnone] at h
  exact Option.noConfusion h

theorem parentAt_lt {s : Scope} (hw : wellFormed s = true) {i p : Nat}
    (h : parentAt s i = some p) : p < i := by
  have hi : i < s.length := parentAt_lt_length h
  have := (List.all_eq_true.mp hw) i (List.mem_range.mpr hi)
  rw [h] at this
  exact of_decide_eq_true this

theorem mem_childrenIdx {s : Scope} {i j : Nat} :
    j ∈ childrenIdx s i ↔ j < s.length ∧ parentAt s j = some i := by
  simp [childrenIdx, List.mem_filter, List.mem_range]

theorem mem_rootsIdx {s : Scope} {i : Nat} :
    i ∈ rootsIdx s ↔ i < s.length ∧ parentAt s i = none := by
  simp [rootsIdx, List.mem_filter, List.mem_range, Option.isNone_iff_eq_none]

theorem childrenIdx_nodup (s : Scope) (i : Nat) : (childrenIdx s i).Nodup :=
  (List.nodup_range _).filter _

theorem rootsIdx_nodup (s : Scope) : (rootsIdx s).Nodup :=
  (List.nodup_range _).filter _

theorem lt_of_mem_childrenIdx {s : Scope} (hw : wellFormed s = true) {i j : Nat}
    (h : j ∈ childrenIdx s i) : i < j :=
  parentAt_lt hw (mem_childrenIdx.mp h).2

theorem reaches_le {s : Scope} (hw : wellFormed s = true) {i j : Nat}
    (h : Reaches s i j) : i ≤ j := by
  induction h with
  | refl => exact Nat.le_refl _
  | step hp _ ih => exact Nat.le_trans ih (Nat.le_of_lt (parentAt_lt hw hp))

theorem reaches_trans {s : Scope} {i k j : Nat}
    (h1 : Reaches s i k) (h2 : Reaches s k j) : Reaches s i j := by
  induction h2 with
  | refl => exact h1
  | step hp _ ih => exact Reaches.step hp ih

theorem reaches_dest {s : Scope} {i j : Nat} (h : Reaches s i j) :
    i = j ∨ ∃ p, parentAt s j = some p ∧ Reaches s i p := by
  cases h with
  | refl => exact Or.inl rfl
  | step hp hr => exact Or.inr ⟨_, hp, hr⟩

theorem reaches_lt_length {s : Scope} (hw : wellFormed s = true) {i j : Nat}
    (h : Reaches s i j) (hj : j < s.length) : i < s.length := by
  induction h with
  | refl => exact hj
  | step hp _ ih => exact ih (Nat.lt_trans (parentAt_lt hw hp) (parentAt_lt_length hp))

theorem reaches_comparable {s : Scope} {a b j : Nat}
    (h1 : Reaches s a j) (h2 : Reaches s b j) :
    Reaches s a b ∨ Reaches s b a := by
  induction h1 with
  | refl => exact Or.inr h2
  | step hp hr ih =>
    rcases reaches_dest h2 with rfl | ⟨p2, hp2, hr2⟩
    · exact Or.inl (Reaches.step hp hr)
    · rw [hp] at hp2
      cases hp2
      exact ih hr2

theorem root_exists {s : Scope} (hw : wellFormed s = true) :
    ∀ i, i < s.length → ∃ r, parentAt s r = none ∧ Reaches s r i := by
  intro i
  induction i using Nat.strong_induction_on with
  | _ i ih =>
    intro hi
    cases hpar : parentAt s i with
    | none => exact ⟨i, hpar, Reaches.refl i⟩
    | some p =>
      have hp : p < i := parentAt_lt hw hpar
      obtain ⟨r, hr, hreach⟩ := ih p hp (Nat.lt_trans hp hi)
      exact ⟨r, hr, Reaches.step hpar hreach⟩

end TransitionModel

namespace TransitionModel

theorem subtreeList_stable {s : Scope} (hw : wellFormed s = true) (pre : Bool) :
    ∀ fuel1 fuel2 : Nat, ∀ {i : Nat}, i < s.length →
      s.length - i ≤ fuel1 → s.length - i ≤ fuel2 →
      subtreeList s pre fuel1 i = subtreeList s pre fuel2 i := by
  intro fuel1
  induction fuel1 with
  | zero => intro fuel2 i hi h1 _; omega
  | succ f1 ih =>
    intro fuel2 i hi h1 h2
    cases fuel2 with
    | zero => omega
    | succ f2 =>
      simp only [subtreeList]
      have hmap : (childrenIdx s i).map (subtreeList s pre f1)
          = (childrenIdx s i).map (subtreeList s pre f2) := by
        apply List.map_congr_left
        intro c hc
        have hci : i < c := lt_of_mem_childrenIdx hw hc
        have hcn : c < s.length := (mem_childrenIdx.mp hc).1
        exact ih f2 hcn (by omega) (by omega)
      rw [hmap]

theorem self_mem_subtreeList {s : Scope} {pre : Bool} {fuel i : Nat} (hf : 1 ≤ fuel) :
    i ∈ subtreeList s pre fuel i := by
  cases fuel with
  | zero => omega
  | succ f =>
    cases pre <;> simp [subtreeList]

theorem mem_subtreeList_sound {s : Scope} (hw : wellFormed s = true) (pre : Bool) :
    ∀ fuel : Nat, ∀ {i j : Nat}, j ∈ subtreeList s pre fuel i →
      Reaches s i j ∧ (i < s.length → j < s.length) := by
  intro fuel
  induction fuel with
  | zero => intro i j h; simp [subtreeList] at h
  | succ f ih =>
    intro i j h
    have hsplit : j = i ∨ ∃ c ∈ childrenIdx s i, j ∈ subtreeList s pre f c := by
      cases pre <;> simp only [subtreeList] at h <;> simp at h <;> tauto
    rcases hsplit with rfl | ⟨c, hc, hbl2⟩
    · exact ⟨Reaches.refl j, fun h => h⟩
    · have hcC := mem_childrenIdx.mp hc
      obtain ⟨hreach, _⟩ := ih hbl2
      refine ⟨reaches_trans (Reaches.step hcC.2 (Reaches.refl i)) hreach, fun _ => ?_⟩
      exact (ih hbl2).2 hcC.1

theorem mem_subtreeList_of_parent {s : Scope} (hw : wellFormed s = true) (pre : Bool) :
    ∀ fuel : Nat, ∀ {i p j : Nat}, i < s.length → s.length - i ≤ fuel →
      p ∈ subtreeList s pre fuel i → parentAt s j = some p →
      j ∈ subtreeList s pre fuel i := by
  intro fuel
  induction fuel with
  | zero => intro i p j hi hf _ _; omega
  | succ f ih =>
    intro i p j hi hf hp hj
    have hjn : j < s.length := parentAt_lt_length hj
    have hsplit : p = i ∨ ∃ c ∈ childrenIdx s i, p ∈ subtreeList s pre f c := by
      cases pre <;> simp only [subtreeList] at hp <;> simp at hp <;> tauto
    have hgoal : j ∈ ((childrenIdx s i).map (subtreeList s pre f)).flatten := by
      rcases hsplit with rfl | ⟨c, hc, hbl2⟩
      · have hjc : j ∈ childrenIdx s p := mem_childrenIdx.mpr ⟨hjn, hj⟩
        have hjp : p < j := parentAt_lt hw hj
        rw [List.mem_flatten]
        exact ⟨subtreeList s pre f j, List.mem_map_of_mem _ hjc,
          self_mem_subtreeList (by omega)⟩
      · rw [List.mem_flatten]
        have hcC := mem_childrenIdx.mp hc
        have hci : i < c := lt_of_mem_childrenIdx hw hc
        exact ⟨subtreeList s pre f c, List.mem_map_of_mem _ hc,
          ih hcC.1 (by omega) hbl2 hj⟩
    cases pre <;> simp only [subtreeList] <;> simp [hgoal]

theorem mem_subtreeList_of_reaches {s : Scope} (hw : wellFormed s = true) (pre : Bool)
    {i j fuel : Nat} (hi : i < s.length) (hf : s.length - i ≤ fuel)
    (hr : Reaches s i j) : j ∈ subtreeList s pre fuel i := by
  induction hr with
  | refl => exact self_mem_subtreeList (by omega)
  | step hp _ ih => exact mem_subtreeList_of_parent hw pre fuel hi hf ih hp

theorem subtree_disjoint_of_siblings {s : Scope} (hw : wellFormed s = true) {i c1 c2 : Nat}
    (h1 : c1 ∈ childrenIdx s i) (h2 : c2 ∈ childrenIdx s i) (hne : c1 ≠ c2)
    {j : Nat} (hr1 : Reaches s c1 j) (hr2 : Reaches s c2 j) : False := by
  have key : ∀ a b : Nat, a ∈ childrenIdx s i → b ∈ childrenIdx s i → a ≠ b →
      Reaches s a b → False := by
    intro a b ha hb hab hr
    rcases reaches_dest hr with rfl | ⟨p, hp, hr'⟩
    · exact hab rfl
    · rw [(mem_childrenIdx.mp hb).2] at hp
      cases hp
      have := reaches_le hw hr'
      have := lt_of_mem_childrenIdx hw ha
      omega
  rcases reaches_comparable hr1 hr2 with h | h
  · exact key c1 c2 h1 h2 hne h
  · exact key c2 c1 h2 h1 (Ne.symm hne) h

theorem subtreeList_nodup {s : Scope} (hw : wellFormed s = true) (pre : Bool) :
    ∀ fuel : Nat, ∀ {i : Nat}, i < s.length → s.length - i ≤ fuel →
      (subtreeList s pre fuel i).Nodup := by
  intro fuel
  induction fuel with
  | zero => intro i hi hf; omega
  | succ f ih =>
    intro i hi hf
    have hblocks : (((childrenIdx s i).map (subtreeList s pre f)).flatten).Nodup := by
      rw [List.nodup_flatten]
      constructor
      · intro bl hbl
        rw [List.mem_map] at hbl
        obtain ⟨c, hc, rfl⟩ := hbl
        have hcC := mem_childrenIdx.mp hc
        have hci : i < c := lt_of_mem_childrenIdx hw hc
        exact ih hcC.1 (by omega)
      · rw [List.pairwise_map]
        refine List.Pairwise.imp_of_mem ?_ (childrenIdx_nodup s i)
        intro c1 c2 hc1 hc2 hne j hj1 hj2
        exact subtree_disjoint_of_siblings hw hc1 hc2 hne
          (mem_subtreeList_sound hw pre f hj1).1 (mem_subtreeList_sound hw pre f hj2).1
    have hiblocks : i ∉ ((childrenIdx s i).map (subtreeList s pre f)).flatten := by
      intro hmem
      rw [List.mem_flatten] at hmem
      obtain ⟨bl, hbl1, hbl2⟩ := hmem
      rw [List.mem_map] at hbl1
      obtain ⟨c, hc, rfl⟩ := hbl1
      have := reaches_le hw (mem_subtreeList_sound hw pre f hbl2).1
      have := lt_of_mem_childrenIdx hw hc
      omega
    cases pre
    · simp only [subtreeList, Bool.false_eq_true, if_false]
      rw [List.nodup_append]
      refine ⟨hblocks, List.nodup_singleton i, ?_⟩
      intro x hx hx'
      rw [List.mem_singleton] at hx'
      exact hiblocks (hx' ▸ hx)
    · simp only [subtreeList, if_true]
      exact List.nodup_cons.mpr ⟨hiblocks, hblocks⟩

end TransitionModel

namespace TransitionModel

theorem travOrder_nodup {s : Scope} (hw : wellFormed s = true) (pre : Bool) :
    (travOrder s pre).Nodup := by
  rw [travOrder, List.nodup_flatten]
  constructor
  · intro bl hbl
    rw [List.mem_map] at hbl
    obtain ⟨r, hr, rfl⟩ := hbl
    exact subtreeList_nodup hw pre s.length (mem_rootsIdx.mp hr).1 (by omega)
  · rw [List.pairwise_map]
    refine List.Pairwise.imp_of_mem ?_ (rootsIdx_nodup s)
    intro r1 r2 hr1 hr2 hne j hj1 hj2
    have h1 := (mem_subtreeList_sound hw pre s.length hj1).1
    have h2 := (mem_subtreeList_sound hw pre s.length hj2).1
    have key : ∀ a b : Nat, a ∈ rootsIdx s → b ∈ rootsIdx s → a ≠ b →
        Reaches s a b → False := by
      intro a b ha hb hab hr
      rcases reaches_dest hr with rfl | ⟨p, hp, _⟩
      · exact hab rfl
      · rw [(mem_rootsIdx.mp hb).2] at hp
        exact Option.noConfusion hp
    rcases reaches_comparable h1 h2 with h | h
    · exact key r1 r2 hr1 hr2 hne h
    · exact key r2 r1 hr2 hr1 (Ne.symm hne) h

theorem mem_travOrder {s : Scope} (hw : wellFormed s = true) (pre : Bool) {i : Nat} :
    i ∈ travOrder s pre ↔ i < s.length := by
  constructor
  · intro h
    rw [travOrder, List.mem_flatten] at h
    obtain ⟨bl, hbl, hmem⟩ := h
    rw [List.mem_map] at hbl
    obtain ⟨r, hr, rfl⟩ := hbl
    exact (mem_subtreeList_sound hw pre s.length hmem).2 (mem_rootsIdx.mp hr).1
  · intro h
    obtain ⟨r, hroot, hreach⟩ := root_exists hw i h
    have hrn : r < s.length := by
      have := reaches_le hw hreach
      omega
    rw [travOrder, List.mem_flatten]
    exact ⟨subtreeList s pre s.length r,
      List.mem_map_of_mem _ (mem_rootsIdx.mpr ⟨hrn, hroot⟩),
      mem_subtreeList_of_reaches hw pre hrn (by omega) hreach⟩

theorem subtreeList_decomp {s : Scope} (hw : wellFormed s = true) (pre : Bool)
    {a b : Nat} (hr : Reaches s a b) (ha : a < s.length) :
    ∃ X Y, subtreeList s pre s.length a
      = X ++ subtreeList s pre s.length b ++ Y := by
  induction hr with
  | refl => exact ⟨[], [], by simp⟩
  | @step p b' hp hr' ih =>
    obtain ⟨X, Y, hXY⟩ := ih
    have hpn : p < s.length := by
      have h1 := parentAt_lt hw hp
      have h2 := parentAt_lt_length hp
      omega
    have hbn : b' < s.length := parentAt_lt_length hp
    have hpb : p < b' := parentAt_lt hw hp
    -- decompose the subtree of `p` around the block of its child `b'`
    obtain ⟨m, hm⟩ : ∃ m, s.length = m + 1 := ⟨s.length - 1, by omega⟩
    have hchild : b' ∈ childrenIdx s p := mem_childrenIdx.mpr ⟨hbn, hp⟩
    obtain ⟨L1, L2, hL⟩ := List.append_of_mem hchild
    have hblocks : ((childrenIdx s p).map (subtreeList s pre m)).flatten
        = ((L1.map (subtreeList s pre m)).flatten)
          ++ subtreeList s pre s.length b'
          ++ ((L2.map (subtreeList s pre m)).flatten) := by
      rw [hL]
      rw [List.map_append, List.map_cons, List.flatten_append, List.flatten_cons]
      rw [subtreeList_stable hw pre m s.length hbn (by omega) (by omega)]
      simp [List.append_assoc]
    have hunfold : subtreeList s pre s.length p
        = (if pre then p :: ((childrenIdx s p).map (subtreeList s pre m)).flatten
           else ((childrenIdx s p).map (subtreeList s pre m)).flatten ++ [p]) := by
      rw [hm]
      simp only [subtreeList]
    have hsub : ∃ X' Y', subtreeList s pre s.length p
        = X' ++ subtreeList s pre s.length b' ++ Y' := by
      rw [hunfold, hblocks]
      cases pre
      · simp only [Bool.false_eq_true, if_false]
        exact ⟨(L1.map (subtreeList s false m)).flatten,
          (L2.map (subtreeList s false m)).flatten ++ [p], by simp [List.append_assoc]⟩
      · simp only [if_true]
        exact ⟨p :: (L1.map (subtreeList s true m)).flatten,
          (L2.map (subtreeList s true m)).flatten, by simp [List.append_assoc]⟩
    obtain ⟨X', Y', hXY'⟩ := hsub
    refine ⟨X ++ X', Y' ++ Y, ?_⟩
    rw [hXY, hXY']
    simp [List.append_assoc]

theorem travOrder_decomp {s : Scope} (hw : wellFormed s = true) (pre : Bool)
    {i : Nat} (hi : i < s.length) :
    ∃ X Y, travOrder s pre = X ++ subtreeList s pre s.length i ++ Y := by
  obtain ⟨r, hroot, hreach⟩ := root_exists hw i hi
  have hrn : r < s.length := by
    have := reaches_le hw hreach
    omega
  have hrmem : r ∈ rootsIdx s := mem_rootsIdx.mpr ⟨hrn, hroot⟩
  obtain ⟨R1, R2, hR⟩ := List.append_of_mem hrmem
  have htrav : travOrder s pre
      = (R1.map (subtreeList s pre s.length)).flatten
        ++ subtreeList s pre s.length r
        ++ (R2.map (subtreeList s pre s.length)).flatten := by
    rw [travOrder, hR]
    rw [List.map_append, List.map_cons, List.flatten_append, List.flatten_cons]
    simp [List.append_assoc]
  obtain ⟨X', Y', hXY'⟩ := subtreeList_decomp hw pre hreach hrn
  refine ⟨(R1.map (subtreeList s pre s.length)).flatten ++ X',
    Y' ++ (R2.map (subtreeList s pre s.length)).flatten, ?_⟩
  rw [htrav, hXY']
  simp [List.append_assoc]

end TransitionModel

namespace TransitionModel

theorem indexOf_decomp {trav X B Y : List Nat} (hnd : trav.Nodup)
    (hdec : trav = X ++ B ++ Y) {a : Nat} (ha : a ∈ B) :
    trav.indexOf a = X.length + B.indexOf a := by
  subst hdec
  rw [List.append_assoc]
  have hnd' := hnd
  rw [List.append_assoc] at hnd'
  have hdisj := List.disjoint_of_nodup_append hnd'
  have haX : a ∉ X := fun hx => hdisj hx (List.mem_append_left _ ha)
  rw [List.indexOf_append_of_not_mem haX, List.indexOf_append_of_mem ha]

theorem travOrder_before_enter {s : Scope} (hw : wellFormed s = true)
    {i j : Nat} (hr : Reaches s j i) (hne : i ≠ j) (hi : i < s.length) :
    (travOrder s true).indexOf j < (travOrder s true).indexOf i := by
  have hj : j < s.length := by
    have := reaches_le hw hr
    omega
  obtain ⟨X, Y, hdec⟩ := travOrder_decomp hw true hj
  have hnd := travOrder_nodup hw true
  have hiB : i ∈ subtreeList s true s.length j :=
    mem_subtreeList_of_reaches hw true hj (by omega) hr
  have hjB : j ∈ subtreeList s true s.length j := self_mem_subtreeList (by omega)
  rw [indexOf_decomp hnd hdec hiB, indexOf_decomp hnd hdec hjB]
  obtain ⟨m, hm⟩ : ∃ m, s.length = m + 1 := ⟨s.length - 1, by omega⟩
  have hunfold : subtreeList s true s.length j
      = j :: ((childrenIdx s j).map (subtreeList s true m)).flatten := by
    rw [hm]
    simp [subtreeList]
  rw [hunfold]
  rw [List.indexOf_cons_self, List.indexOf_cons_ne _ (Ne.symm hne)]
  omega

theorem travOrder_before_leave {s : Scope} (hw : wellFormed s = true)
    {i j : Nat} (hr : Reaches s j i) (hne : i ≠ j) (hi : i < s.length) :
    (travOrder s false).indexOf i < (travOrder s false).indexOf j := by
  have hj : j < s.length := by
    have := reaches_le hw hr
    omega
  obtain ⟨X, Y, hdec⟩ := travOrder_decomp hw false hj
  have hnd := travOrder_nodup hw false
  have hiB : i ∈ subtreeList s false s.length j :=
    mem_subtreeList_of_reaches hw false hj (by omega) hr
  have hjB : j ∈ subtreeList s false s.length j := self_mem_subtreeList (by omega)
  rw [indexOf_decomp hnd hdec hiB, indexOf_decomp hnd hdec hjB]
  have hndB : (subtreeList s false s.length j).Nodup :=
    subtreeList_nodup hw false s.length hj (by omega)
  obtain ⟨m, hm⟩ : ∃ m, s.length = m + 1 := ⟨s.length - 1, by omega⟩
  have hunfold : subtreeList s false s.length j
      = ((childrenIdx s j).map (subtreeList s false m)).flatten ++ [j] := by
    rw [hm]
    simp [subtreeList]
  rw [hunfold] at hiB hjB hndB ⊢
  have hiBlocks : i ∈ ((childrenIdx s j).map (subtreeList s false m)).flatten := by
    rcases List.mem_append.mp hiB with h | h
    · exact h
    · rw [List.mem_singleton] at h
      exact absurd h hne
  have hjBlocks : j ∉ ((childrenIdx s j).map (subtreeList s false m)).flatten := by
    intro hmem
    exact (List.disjoint_of_nodup_append hndB) hmem (List.mem_singleton_self j)
  rw [List.indexOf_append_of_mem hiBlocks, List.indexOf_append_of_not_mem hjBlocks]
  have := List.indexOf_lt_length.mpr hiBlocks
  omega

end TransitionModel

namespace TransitionModel

theorem mem_insertByTime {e a : Nat × Nat} :
    ∀ {l : List (Nat × Nat)}, a ∈ insertByTime e l ↔ a = e ∨ a ∈ l := by
  intro l
  induction l with
  | nil => simp [insertByTime]
  | cons x xs ih =>
    simp only [insertByTime]
    by_cases h : x.2 ≤ e.2 <;> simp [h, ih] <;> tauto

theorem insertByTime_perm (e : Nat × Nat) :
    ∀ l : List (Nat × Nat), (insertByTime e l).Perm (e :: l) := by
  intro l
  induction l with
  | nil => simp [insertByTime]
  | cons x xs ih =>
    simp only [insertByTime]
    by_cases h : x.2 ≤ e.2
    · simp only [h, if_true]
      exact (List.Perm.cons x ih).trans (List.Perm.swap e x xs)
    · simp [h]

theorem sortByTime_perm : ∀ l : List (Nat × Nat), (sortByTime l).Perm l := by
  intro l
  induction l with
  | nil => simp [sortByTime]
  | cons x xs ih =>
    simp only [sortByTime]
    exact (insertByTime_perm x (sortByTime xs)).trans (List.Perm.cons x ih)

theorem pairwise_insertByTime {e : Nat × Nat} :
    ∀ {l : List (Nat × Nat)}, List.Pairwise (fun a b => a.2 ≤ b.2) l →
      List.Pairwise (fun a b => a.2 ≤ b.2) (insertByTime e l) := by
  intro l
  induction l with
  | nil => simp [insertByTime]
  | cons x xs ih =>
    intro h
    rw [List.pairwise_cons] at h
    simp only [insertByTime]
    by_cases hle : x.2 ≤ e.2
    · simp only [hle, if_true]
      rw [List.pairwise_cons]
      refine ⟨?_, ih h.2⟩
      intro a ha
      rcases mem_insertByTime.mp ha with rfl | ha'
      · exact hle
      · exact h.1 a ha'
    · simp only [hle, if_false]
      rw [List.pairwise_cons]
      refine ⟨?_, List.pairwise_cons.mpr h⟩
      intro a ha
      rcases List.mem_cons.mp ha with rfl | ha'
      · omega
      · exact Nat.le_trans (by omega) (h.1 a ha')

theorem sortByTime_pairwise :
    ∀ l : List (Nat × Nat), List.Pairwise (fun a b => a.2 ≤ b.2) (sortByTime l) := by
  intro l
  induction l with
  | nil => simp [sortByTime]
  | cons x xs ih =>
    simp only [sortByTime]
    exact pairwise_insertByTime ih

theorem mem_completionEvents {s : Scope} (hw : wellFormed s = true) {dir : Direction}
    {e : Nat × Nat} :
    e ∈ completionEvents s dir ↔ e.1 < s.length ∧ e.2 = durAt s e.1 := by
  rw [completionEvents, (sortByTime_perm _).mem_iff, List.mem_map]
  constructor
  · rintro ⟨i, hi, rfl⟩
    have : i < s.length := by
      cases dir <;> exact (mem_travOrder hw _).mp hi
    exact ⟨this, rfl⟩
  · rintro ⟨h1, h2⟩
    refine ⟨e.1, ?_, ?_⟩
    · cases dir <;> exact (mem_travOrder hw _).mpr h1
    · rw [← h2]

theorem dispatchOrder_nodup {s : Scope} (hw : wellFormed s = true) (dir : Direction) :
    (dispatchOrder s dir).Nodup := by
  cases dir <;> exact travOrder_nodup hw _

theorem mem_dispatchOrder {s : Scope} (hw : wellFormed s = true) (dir : Direction) {i : Nat} :
    i ∈ dispatchOrder s dir ↔ i < s.length := by
  cases dir <;> exact mem_travOrder hw _

theorem completionEvents_ids {s : Scope} (dir : Direction) :
    ((completionEvents s dir).map Prod.fst).Perm (dispatchOrder s dir) := by
  have h1 : ((completionEvents s dir).map Prod.fst).Perm
      (((dispatchOrder s dir).map fun i => (i, durAt s i)).map Prod.fst) :=
    (sortByTime_perm _).map _
  have h2 : ((dispatchOrder s dir).map fun i => (i, durAt s i)).map Prod.fst
      = dispatchOrder s dir := by
    rw [List.map_map]
    exact List.map_id _ ▸ List.map_congr_left (fun a _ => rfl)
  rw [h2] at h1
  exact h1

theorem completionEvents_ids_nodup {s : Scope} (hw : wellFormed s = true) (dir : Direction) :
    ((completionEvents s dir).map Prod.fst).Nodup :=
  (completionEvents_ids dir).symm.nodup (dispatchOrder_nodup hw dir)

theorem completionEvents_sorted (s : Scope) (dir : Direction) :
    List.Pairwise (fun a b : Nat × Nat => a.2 ≤ b.2) (completionEvents s dir) :=
  sortByTime_pairwise _

end TransitionModel

namespace TransitionModel

theorem setFlag_self (f : Nat → Bool) (i : Nat) : setFlag f i i = true := by
  simp [setFlag]

theorem setFlag_other (f : Nat → Bool) {i j : Nat} (h : j ≠ i) : setFlag f i j = f j := by
  simp [setFlag, h]

theorem setFlag_eq_true {f : Nat → Bool} {i j : Nat} :
    setFlag f i j = true ↔ (j = i ∨ f j = true) := by
  by_cases h : j = i <;> simp [setFlag, h]

theorem pendingChildren_eq_zero {s : Scope} {st : SimState} {i : Nat} :
    pendingChildren s st i = 0 ↔ ∀ j ∈ childrenIdx s i, st.fired j = true := by
  rw [pendingChildren, List.length_eq_zero, List.filter_eq_nil_iff]
  constructor
  · intro h j hj
    have := h j hj
    simp at this
    exact this
  · intro h j hj
    simp [h j hj]

theorem eligible_true_iff {s : Scope} {st : SimState} {i : Nat} :
    eligible s st i = true ↔
      st.fired i = false ∧ st.ownDone i = true ∧ pendingChildren s st i = 0 := by
  simp [eligible, Bool.and_eq_true, Bool.not_eq_true']
  tauto

theorem reportUp_ownDone {s : Scope} {t : Nat} :
    ∀ (fuel i : Nat) (st : SimState) (k : Nat),
      (reportUp s t fuel st i).1.ownDone k = st.ownDone k := by
  intro fuel
  induction fuel with
  | zero => intro i st k; simp [reportUp]
  | succ f ih =>
    intro i st k
    simp only [reportUp]
    by_cases h : eligible s st i = true
    · simp only [h, if_true]
      cases hpar : parentAt s i with
      | none => rfl
      | some p => exact ih p _ k
    · simp [h]

theorem reportUp_times {s : Scope} {t : Nat} :
    ∀ (fuel i : Nat) (st : SimState) (e : Nat × Nat),
      e ∈ (reportUp s t fuel st i).2 → e.2 = t := by
  intro fuel
  induction fuel with
  | zero => intro i st e h; simp [reportUp] at h
  | succ f ih =>
    intro i st e h
    simp only [reportUp] at h
    by_cases heli : eligible s st i = true
    · simp only [heli, if_true] at h
      cases hpar : parentAt s i with
      | none =>
        rw [hpar] at h
        simp only [List.mem_singleton] at h
        rw [h]
      | some p =>
        rw [hpar] at h
        simp only [List.mem_cons] at h
        rcases h with rfl | h
        · rfl
        · exact ih p _ e h
    · simp [heli] at h

theorem runEvents_append (s : Scope) :
    ∀ (a b : List (Nat × Nat)) (st : SimState),
      runEvents s (a ++ b) st = runEvents s a st ++ runEvents s b (endState s a st) := by
  intro a
  induction a with
  | nil => intro b st; simp [runEvents, endState]
  | cons e es ih =>
    intro b st
    simp only [List.cons_append, runEvents, endState]
    rw [show es.append b = es ++ b from rfl, ih]
    simp [List.append_assoc]

theorem endState_append (s : Scope) :
    ∀ (a b : List (Nat × Nat)) (st : SimState),
      endState s (a ++ b) st = endState s b (endState s a st) := by
  intro a
  induction a with
  | nil => intro b st; simp [endState]
  | cons e es ih =>
    intro b st
    simp only [List.cons_append, endState]
    rw [show es.append b = es ++ b from rfl, ih]

theorem endState_ownDone (s : Scope) :
    ∀ (evs : List (Nat × Nat)) (st : SimState) (k : Nat),
      (endState s evs st).ownDone k = true ↔
        (st.ownDone k = true ∨ k ∈ evs.map Prod.fst) := by
  intro evs
  induction evs with
  | nil => intro st k; simp [endState]
  | cons e es ih =>
    intro st k
    simp only [endState, List.map_cons, List.mem_cons]
    rw [ih]
    have : (processEvent s st e).1.ownDone k
        = (markOwnTransitionDone st e.1).ownDone k := reportUp_ownDone _ _ _ _
    rw [this]
    simp only [markOwnTransitionDone]
    rw [setFlag_eq_true]
    tauto

theorem mem_runEvents_time (s : Scope) :
    ∀ (evs : List (Nat × Nat)) (st : SimState) (e : Nat × Nat),
      e ∈ runEvents s evs st → ∃ ev ∈ evs, e.2 = ev.2 := by
  intro evs
  induction evs with
  | nil => intro st e h; simp [runEvents] at h
  | cons ev evs ih =>
    intro st e h
    simp only [runEvents] at h
    rcases List.mem_append.mp h with h | h
    · exact ⟨ev, List.mem_cons_self _ _, reportUp_times _ _ _ _ h⟩
    · obtain ⟨ev', hev', he⟩ := ih _ e h
      exact ⟨ev', List.mem_cons_of_mem _ hev', he⟩

end TransitionModel

namespace TransitionModel

theorem pendingChildren_congr {s : Scope} {st1 st2 : SimState} {k : Nat}
    (h : ∀ j ∈ childrenIdx s k, st1.fired j = st2.fired j) :
    pendingChildren s st1 k = pendingChildren s st2 k := by
  rw [pendingChildren, pendingChildren]
  congr 1
  apply List.filter_congr
  intro j hj
  rw [h j hj]

theorem reportUp_out {s : Scope} {t : Nat} :
    ∀ (fuel i : Nat) (st : SimState),
      (∀ k, (reportUp s t fuel st i).1.fired k = true ↔
        (st.fired k = true ∨ k ∈ (reportUp s t fuel st i).2.map Prod.fst)) ∧
      ((reportUp s t fuel st i).2.map Prod.fst).Nodup ∧
      (∀ k ∈ (reportUp s t fuel st i).2.map Prod.fst, st.fired k = false) ∧
      (∀ k ∈ (reportUp s t fuel st i).2.map Prod.fst, st.ownDone k = true) ∧
      (∀ O1 k tk O2, (reportUp s t fuel st i).2 = O1 ++ (k, tk) :: O2 →
        ∀ j ∈ childrenIdx s k, st.fired j = true ∨ j ∈ O1.map Prod.fst) := by
  intro fuel
  induction fuel with
  | zero =>
    intro i st
    refine ⟨fun k => by simp [reportUp], by simp [reportUp], by simp [reportUp],
      by simp [reportUp], ?_⟩
    intro O1 k tk O2 h
    simp only [reportUp] at h
    cases O1 <;> simp at h
  | succ f ih =>
    intro i st
    by_cases heli : eligible s st i = true
    · obtain ⟨hf, ho, hp0⟩ := eligible_true_iff.mp heli
      have hchildren : ∀ j ∈ childrenIdx s i, st.fired j = true :=
        pendingChildren_eq_zero.mp hp0
      cases hpar : parentAt s i with
      | none =>
        have hred : reportUp s t (f + 1) st i
            = ({ st with fired := setFlag st.fired i }, [(i, t)]) := by
          simp [reportUp, heli, hpar]
        rw [hred]
        refine ⟨?_, by simp, ?_, ?_, ?_⟩
        · intro k
          simp only [List.map_cons, List.map_nil, List.mem_singleton]
          rw [setFlag_eq_true]
          tauto
        · intro k hk
          simp only [List.map_cons, List.map_nil, List.mem_singleton] at hk
          subst hk
          exact hf
        · intro k hk
          simp only [List.map_cons, List.map_nil, List.mem_singleton] at hk
          subst hk
          exact ho
        · intro O1 k tk O2 h j hj
          cases O1 with
          | nil =>
            simp only [List.nil_append] at h
            cases h
            exact Or.inl (hchildren j hj)
          | cons o O1' =>
            cases O1' <;> simp at h
      | some p =>
        have hred : reportUp s t (f + 1) st i
            = ((reportUp s t f { st with fired := setFlag st.fired i } p).1,
               (i, t) :: (reportUp s t f { st with fired := setFlag st.fired i } p).2) := by
          simp [reportUp, heli, hpar]
        obtain ⟨ihf, ihnd, ihunf, ihod, ihgate⟩ :=
          ih p { st with fired := setFlag st.fired i }
        rw [hred]
        have hst1fired : ∀ k, ({ st with fired := setFlag st.fired i } : SimState).fired k
            = setFlag st.fired i k := fun _ => rfl
        have hunf1 : ∀ k, setFlag st.fired i k = false → st.fired k = false := by
          intro k h
          by_cases hk : k = i
          · rw [hk, setFlag_self] at h
            exact absurd h (by simp)
          · rw [setFlag_other _ hk] at h
            exact h
        constructor
        · intro k
          rw [ihf k]
          rw [hst1fired, setFlag_eq_true]
          simp only [List.map_cons, List.mem_cons]
          tauto
        refine ⟨?_, ?_, ?_, ?_⟩
        · simp only [List.map_cons]
          rw [List.nodup_cons]
          refine ⟨?_, ihnd⟩
          intro hmem
          have := ihunf i hmem
          rw [hst1fired, setFlag_self] at this
          exact Bool.noConfusion this
        · intro k hk
          simp only [List.map_cons, List.mem_cons] at hk
          rcases hk with rfl | hk
          · exact hf
          · exact hunf1 k (by rw [← hst1fired]; exact ihunf k hk)
        · intro k hk
          simp only [List.map_cons, List.mem_cons] at hk
          rcases hk with rfl | hk
          · exact ho
          · exact ihod k hk
        · intro O1 k tk O2 h j hj
          cases O1 with
          | nil =>
            simp only [List.nil_append] at h
            cases h
            exact Or.inl (hchildren j hj)
          | cons o O1' =>
            simp only [List.cons_append] at h
            injection h with h1 h2
            subst h1
            rcases ihgate O1' k tk O2 h2 j hj with hfired | hmem
            · rw [hst1fired, setFlag_eq_true] at hfired
              rcases hfired with rfl | hfired
              · exact Or.inr (by simp)
              · exact Or.inl hfired
            · exact Or.inr (by simp [hmem])
    · have hred : reportUp s t (f + 1) st i = (st, []) := by
        simp [reportUp, heli]
      rw [hred]
      refine ⟨fun k => by simp, by simp, by simp, by simp, ?_⟩
      intro O1 k tk O2 h
      cases O1 <;> simp at h

end TransitionModel

namespace TransitionModel

theorem reportUp_inv {s : Scope} (hw : wellFormed s = true) {t : Nat} :
    ∀ (fuel i : Nat) (st : SimState), i < s.length → i + 1 ≤ fuel →
      (∀ k, st.fired k = true → st.ownDone k = true) →
      (∀ k, st.fired k = true → ∀ j ∈ childrenIdx s k, st.fired j = true) →
      (∀ k, k ≠ i → st.fired k = false → st.ownDone k = true →
        pendingChildren s st k ≠ 0) →
      (∀ k, (reportUp s t fuel st i).1.fired k = true →
        (reportUp s t fuel st i).1.ownDone k = true) ∧
      (∀ k, (reportUp s t fuel st i).1.fired k = true →
        ∀ j ∈ childrenIdx s k, (reportUp s t fuel st i).1.fired j = true) ∧
      (∀ k, (reportUp s t fuel st i).1.fired k = false →
        (reportUp s t fuel st i).1.ownDone k = true →
        pendingChildren s (reportUp s t fuel st i).1 k ≠ 0) := by
  intro fuel
  induction fuel with
  | zero => intro i st hi hfuel; omega
  | succ f ih =>
    intro i st hi hfuel hfo hgate hnoel
    by_cases heli : eligible s st i = true
    · obtain ⟨hf, ho, hp0⟩ := eligible_true_iff.mp heli
      have hchildren : ∀ j ∈ childrenIdx s i, st.fired j = true :=
        pendingChildren_eq_zero.mp hp0
      have hfo1 : ∀ k, ({ st with fired := setFlag st.fired i } : SimState).fired k = true →
          ({ st with fired := setFlag st.fired i } : SimState).ownDone k = true := by
        intro k hk
        rcases setFlag_eq_true.mp hk with rfl | hk'
        · exact ho
        · exact hfo k hk'
      have hgate1 : ∀ k, ({ st with fired := setFlag st.fired i } : SimState).fired k = true →
          ∀ j ∈ childrenIdx s k,
            ({ st with fired := setFlag st.fired i } : SimState).fired j = true := by
        intro k hk j hj
        rcases setFlag_eq_true.mp hk with rfl | hk'
        · exact setFlag_eq_true.mpr (Or.inr (hchildren j hj))
        · exact setFlag_eq_true.mpr (Or.inr (hgate k hk' j hj))
      cases hpar : parentAt s i with
      | none =>
        have hred : reportUp s t (f + 1) st i
            = ({ st with fired := setFlag st.fired i }, [(i, t)]) := by
          simp [reportUp, heli, hpar]
        rw [hred]
        refine ⟨hfo1, hgate1, ?_⟩
        intro k hk hok
        have hki : k ≠ i := by
          intro h
          rw [h] at hk
          rw [show ({ st with fired := setFlag st.fired i } : SimState).fired i
              = setFlag st.fired i i from rfl, setFlag_self] at hk
          exact Bool.noConfusion hk
        have hkst : st.fired k = false := by
          rw [show ({ st with fired := setFlag st.fired i } : SimState).fired k
              = setFlag st.fired i k from rfl, setFlag_other _ hki] at hk
          exact hk
        have hpend := hnoel k hki hkst hok
        have hpc : pendingChildren s { st with fired := setFlag st.fired i } k
            = pendingChildren s st k := by
          apply pendingChildren_congr
          intro j hj
          have hji : j ≠ i := by
            intro h
            rw [h] at hj
            rw [(mem_childrenIdx.mp hj).2] at hpar
            exact Option.noConfusion hpar
          exact setFlag_other _ hji
        rw [hpc]
        exact hpend
      | some p =>
        have hred : (reportUp s t (f + 1) st i).1
            = (reportUp s t f { st with fired := setFlag st.fired i } p).1 := by
          simp only [reportUp, heli, if_true, hpar]
        have hpi : p < i := parentAt_lt hw hpar
        have hnoel1 : ∀ k, k ≠ p →
            ({ st with fired := setFlag st.fired i } : SimState).fired k = false →
            ({ st with fired := setFlag st.fired i } : SimState).ownDone k = true →
            pendingChildren s { st with fired := setFlag st.fired i } k ≠ 0 := by
          intro k hkp hk hok
          have hki : k ≠ i := by
            intro h
            rw [h] at hk
            rw [show ({ st with fired := setFlag st.fired i } : SimState).fired i
                = setFlag st.fired i i from rfl, setFlag_self] at hk
            exact Bool.noConfusion hk
          have hkst : st.fired k = false := by
            rw [show ({ st with fired := setFlag st.fired i } : SimState).fired k
                = setFlag st.fired i k from rfl, setFlag_other _ hki] at hk
            exact hk
          have hpend := hnoel k hki hkst hok
          have hpc : pendingChildren s { st with fired := setFlag st.fired i } k
              = pendingChildren s st k := by
            apply pendingChildren_congr
            intro j hj
            have hji : j ≠ i := by
              intro h
              rw [h] at hj
              rw [(mem_childrenIdx.mp hj).2] at hpar
              cases hpar
              exact hkp rfl
            exact setFlag_other _ hji
          rw [hpc]
          exact hpend
        rw [hred]
        exact ih p { st with fired := setFlag st.fired i } (by omega) (by omega)
          hfo1 hgate1 hnoel1
    · have hred : reportUp s t (f + 1) st i = (st, []) := by
        simp [reportUp, heli]
      rw [hred]
      refine ⟨hfo, hgate, ?_⟩
      intro k hk hok
      by_cases hki : k = i
      · subst hki
        intro hpend
        exact heli (eligible_true_iff.mpr ⟨hk, hok, hpend⟩)
      · exact hnoel k hki hk hok

end TransitionModel

namespace TransitionModel

theorem pairwise_of_const {c : Nat} :
    ∀ {l : List (Nat × Nat)}, (∀ x ∈ l, x.2 = c) →
      List.Pairwise (fun a b : Nat × Nat => a.2 ≤ b.2) l := by
  intro l
  induction l with
  | nil => intro _; exact List.Pairwise.nil
  | cons x xs ih =>
    intro h
    rw [List.pairwise_cons]
    refine ⟨fun b hb => ?_, ih (fun y hy => h y (List.mem_cons_of_mem _ hy))⟩
    rw [h x (List.mem_cons_self _ _), h b (List.mem_cons_of_mem _ hb)]

theorem mem_of_mem_ids {l : List (Nat × Nat)} {j : Nat} (h : j ∈ l.map Prod.fst) :
    ∃ u, (j, u) ∈ l := by
  rw [List.mem_map] at h
  obtain ⟨y, hy, rfl⟩ := h
  exact ⟨y.2, by rw [Prod.mk.eta]; exact hy⟩

end TransitionModel

namespace TransitionModel

theorem processEvent_inv {s : Scope} (hw : wellFormed s = true) {st : SimState}
    {log : List (Nat × Nat)} (inv : SimInv s st log) {e : Nat × Nat}
    (he1 : e.1 < s.length) (he2 : e.2 = durAt s e.1)
    (hlogle : ∀ x ∈ log, x.2 ≤ e.2)
    (hodle : ∀ k, st.ownDone k = true → durAt s k ≤ e.2) :
    SimInv s (processEvent s st e).1 (log ++ (processEvent s st e).2) := by
  have hmf : (markOwnTransitionDone st e.1).fired = st.fired := rfl
  have hmo : (markOwnTransitionDone st e.1).ownDone = setFlag st.ownDone e.1 := rfl
  have hfo0 : ∀ k, (markOwnTransitionDone st e.1).fired k = true →
      (markOwnTransitionDone st e.1).ownDone k = true := by
    intro k hk
    rw [hmo]
    rw [hmf] at hk
    exact setFlag_eq_true.mpr (Or.inr (inv.fired_ownDone k hk))
  have hgate0 : ∀ k, (markOwnTransitionDone st e.1).fired k = true →
      ∀ j ∈ childrenIdx s k, (markOwnTransitionDone st e.1).fired j = true := by
    intro k hk j hj
    rw [hmf] at hk ⊢
    exact inv.gate k hk j hj
  have hnoel0 : ∀ k, k ≠ e.1 → (markOwnTransitionDone st e.1).fired k = false →
      (markOwnTransitionDone st e.1).ownDone k = true →
      pendingChildren s (markOwnTransitionDone st e.1) k ≠ 0 := by
    intro k hk hf ho
    rw [hmo, setFlag_other _ hk] at ho
    rw [hmf] at hf
    have hpc : pendingChildren s (markOwnTransitionDone st e.1) k
        = pendingChildren s st k := pendingChildren_congr (fun j _ => by rw [hmf])
    rw [hpc]
    exact inv.noEligible k hf ho
  obtain ⟨rFired, rNodup, rUnfired, rOwnDone, rGate⟩ :=
    @reportUp_out s e.2 s.length e.1 (markOwnTransitionDone st e.1)
  obtain ⟨nFo, nGate, nNoel⟩ :=
    @reportUp_inv s hw e.2 s.length e.1 (markOwnTransitionDone st e.1)
      he1 (by omega) hfo0 hgate0 hnoel0
  have rTimes : ∀ x ∈ (reportUp s e.2 s.length (markOwnTransitionDone st e.1) e.1).2,
      x.2 = e.2 :=
    fun x hx => @reportUp_times s e.2 s.length e.1 (markOwnTransitionDone st e.1) x hx
  have rOd : ∀ k, (reportUp s e.2 s.length (markOwnTransitionDone st e.1) e.1).1.ownDone k
      = (markOwnTransitionDone st e.1).ownDone k :=
    fun k => @reportUp_ownDone s e.2 s.length e.1 (markOwnTransitionDone st e.1) k
  simp only [processEvent]
  refine ⟨nFo, nGate, nNoel, ?_, ?_, ?_, ?_, ?_, ?_, ?_, ?_⟩
  · -- fired_iff
    intro k
    rw [rFired k, hmf, List.map_append, List.mem_append, inv.fired_iff k]
  · -- nodupLog
    rw [List.map_append, List.nodup_append]
    refine ⟨inv.nodupLog, rNodup, ?_⟩
    intro k hkl hko
    have h1 := rUnfired k hko
    rw [hmf] at h1
    rw [(inv.fired_iff k).mpr hkl] at h1
    exact Bool.noConfusion h1
  · -- gateLogIdx
    intro x hx j hj
    rw [List.map_append]
    rcases List.mem_append.mp hx with hxl | hxo
    · have hxid : x.1 ∈ log.map Prod.fst := List.mem_map_of_mem _ hxl
      have hfx : st.fired x.1 = true := (inv.fired_iff x.1).mpr hxid
      have hfj : st.fired j = true := inv.gate x.1 hfx j hj
      have hjid : j ∈ log.map Prod.fst := (inv.fired_iff j).mp hfj
      rw [List.indexOf_append_of_mem hjid, List.indexOf_append_of_mem hxid]
      exact inv.gateLogIdx x hxl j hj
    · obtain ⟨O1, O2, hsplit⟩ := List.append_of_mem hxo
      have hx1out : x.1 ∈
          (reportUp s e.2 s.length (markOwnTransitionDone st e.1) e.1).2.map Prod.fst :=
        List.mem_map_of_mem _ hxo
      have hx1unf : st.fired x.1 = false := by
        have h1 := rUnfired x.1 hx1out
        rw [hmf] at h1
        exact h1
      have hx1log : x.1 ∉ log.map Prod.fst := by
        intro hmem
        rw [(inv.fired_iff x.1).mpr hmem] at hx1unf
        exact Bool.noConfusion hx1unf
      have hgj := rGate O1 x.1 x.2 O2 (by rw [Prod.mk.eta]; exact hsplit) j hj
      rw [List.indexOf_append_of_not_mem hx1log]
      rcases hgj with hfj | hjO1
      · rw [hmf] at hfj
        have hjid : j ∈ log.map Prod.fst := (inv.fired_iff j).mp hfj
        rw [List.indexOf_append_of_mem hjid]
        have h1 := List.indexOf_lt_length.mpr hjid
        omega
      · obtain ⟨u, hu⟩ := mem_of_mem_ids hjO1
        have hjout : (j, u) ∈
            (reportUp s e.2 s.length (markOwnTransitionDone st e.1) e.1).2 := by
          rw [hsplit]
          exact List.mem_append_left _ hu
        have hjid2 : j ∈
            (reportUp s e.2 s.length (markOwnTransitionDone st e.1) e.1).2.map Prod.fst :=
          List.mem_map_of_mem _ hjout
        have hjunf : st.fired j = false := by
          have h1 := rUnfired j hjid2
          rw [hmf] at h1
          exact h1
        have hjlog : j ∉ log.map Prod.fst := by
          intro hmem
          rw [(inv.fired_iff j).mpr hmem] at hjunf
          exact Bool.noConfusion hjunf
      
        have houtids : (reportUp s e.2 s.length
              (markOwnTransitionDone st e.1) e.1).2.map Prod.fst
            = O1.map Prod.fst ++ x.1 :: O2.map Prod.fst := by
          rw [hsplit]
          simp
        have hx1O1 : x.1 ∉ O1.map Prod.fst := by
          have hnd := rNodup
          rw [houtids] at hnd
          have hdsj := List.disjoint_of_nodup_append hnd
          intro hmem
          exact hdsj hmem (List.mem_cons_self _ _)
        rw [List.indexOf_append_of_not_mem hjlog, houtids,
          List.indexOf_append_of_not_mem hx1O1, List.indexOf_append_of_mem hjO1,
          List.indexOf_cons_self]
        have h2 := List.indexOf_lt_length.mpr hjO1
        omega
  · -- durLe
    intro x hx
    rcases List.mem_append.mp hx with hxl | hxo
    · exact inv.durLe x hxl
    · have hxt : x.2 = e.2 := rTimes x hxo
      have hxod := rOwnDone x.1 (List.mem_map_of_mem _ hxo)
      rw [hmo] at hxod
      rcases setFlag_eq_true.mp hxod with h | h
      · rw [h, hxt, he2]
      · rw [hxt]
        exact hodle x.1 h
  · -- timeMono
    rw [List.pairwise_append]
    refine ⟨inv.timeMono, pairwise_of_const rTimes, ?_⟩
    intro a ha b hb
    rw [rTimes b hb]
    exact hlogle a ha
  · -- childTime
    intro x hx j hj
    rcases List.mem_append.mp hx with hxl | hxo
    · obtain ⟨u, hu, hule⟩ := inv.childTime x hxl j hj
      exact ⟨u, List.mem_append_left _ hu, hule⟩
    · obtain ⟨O1, O2, hsplit⟩ := List.append_of_mem hxo
      have hxt : x.2 = e.2 := rTimes x hxo
      have hgj := rGate O1 x.1 x.2 O2 (by rw [Prod.mk.eta]; exact hsplit) j hj
      rcases hgj with hfj | hjO1
      · rw [hmf] at hfj
        have hjid : j ∈ log.map Prod.fst := (inv.fired_iff j).mp hfj
        obtain ⟨u, hu⟩ := mem_of_mem_ids hjid
        refine ⟨u, List.mem_append_left _ hu, ?_⟩
        rw [hxt]
        exact hlogle _ hu
      · obtain ⟨u, hu⟩ := mem_of_mem_ids hjO1
        have huout : (j, u) ∈
            (reportUp s e.2 s.length (markOwnTransitionDone st e.1) e.1).2 := by
          rw [hsplit]
          exact List.mem_append_left _ hu
        have hut : u = e.2 := rTimes (j, u) huout
        refine ⟨u, List.mem_append_right _ huout, ?_⟩
        rw [hut, hxt]
  · -- leafLogged
    intro k hok hleaf
    have hok0 : (markOwnTransitionDone st e.1).ownDone k = true := by
      rw [← rOd k]
      exact hok
    rw [hmo] at hok0
    rcases setFlag_eq_true.mp hok0 with rfl | hold
    · by_cases holdst : st.ownDone e.1 = true
      · exact List.mem_append_left _ (inv.leafLogged e.1 holdst hleaf)
      · have hstf : st.fired e.1 = false := by
          cases hsf : st.fired e.1 with
          | false => rfl
          | true => exact absurd (inv.fired_ownDone e.1 hsf) holdst
        have hfired' : (reportUp s e.2 s.length
            (markOwnTransitionDone st e.1) e.1).1.fired e.1 = true := by
          by_contra hnf
          have hnf' : (reportUp s e.2 s.length
              (markOwnTransitionDone st e.1) e.1).1.fired e.1 = false :=
            Bool.eq_false_iff.mpr hnf
          have hpend := nNoel e.1 hnf' (by rw [rOd e.1, hmo]; exact setFlag_self _ _)
          apply hpend
          rw [pendingChildren, hleaf]
          rfl
        have hid : e.1 ∈ (reportUp s e.2 s.length
            (markOwnTransitionDone st e.1) e.1).2.map Prod.fst := by
          rcases (rFired e.1).mp hfired' with h | h
          · rw [hmf] at h
            rw [hstf] at h
            exact Bool.noConfusion h
          · exact h
        obtain ⟨u, hu⟩ := mem_of_mem_ids hid
        have hut : u = e.2 := rTimes (e.1, u) hu
        have heq : (e.1, durAt s e.1) = (e.1, u) := by
          rw [hut, he2]
        rw [heq]
        exact List.mem_append_right _ hu
    · exact List.mem_append_left _ (inv.leafLogged k hold hleaf)
  · -- timeOrigin
    intro x hx
    rcases List.mem_append.mp hx with hxl | hxo
    · exact inv.timeOrigin x hxl
    · exact ⟨e.1, he1, by rw [rTimes x hxo, he2]⟩

end TransitionModel

namespace TransitionModel

theorem runEvents_inv {s : Scope} (hw : wellFormed s = true) :
    ∀ (evs : List (Nat × Nat)) (st : SimState) (log : List (Nat × Nat)),
      SimInv s st log →
      List.Pairwise (fun a b : Nat × Nat => a.2 ≤ b.2) evs →
      (∀ e ∈ evs, e.1 < s.length ∧ e.2 = durAt s e.1) →
      (∀ x ∈ log, ∀ e ∈ evs, x.2 ≤ e.2) →
      (∀ k, st.ownDone k = true → ∀ e ∈ evs, durAt s k ≤ e.2) →
      SimInv s (endState s evs st) (log ++ runEvents s evs st) := by
  intro evs
  induction evs with
  | nil =>
    intro st log inv _ _ _ _
    simpa [endState, runEvents] using inv
  | cons e evs ih =>
    intro st log inv hsorted hwf hlogle hodle
    have he := hwf e (List.mem_cons_self _ _)
    have hstep := processEvent_inv hw inv he.1 he.2
      (fun x hx => hlogle x hx e (List.mem_cons_self _ _))
      (fun k hk => hodle k hk e (List.mem_cons_self _ _))
    rw [List.pairwise_cons] at hsorted
    have hnext := ih (processEvent s st e).1 (log ++ (processEvent s st e).2) hstep
      hsorted.2
      (fun x hx => hwf x (List.mem_cons_of_mem _ hx))
      ?_ ?_
    · simp only [endState, runEvents]
      rw [← List.append_assoc]
      exact hnext
    · -- times of the extended log are below all remaining event times
      intro x hx ev hev
      rcases List.mem_append.mp hx with hxl | hxo
      · exact hlogle x hxl ev (List.mem_cons_of_mem _ hev)
      · have hxt : x.2 = e.2 :=
          @reportUp_times s e.2 s.length e.1 (markOwnTransitionDone st e.1) x hxo
        rw [hxt]
        exact hsorted.1 ev hev
    · -- completed durations stay below all remaining event times
      intro k hk ev hev
      have hod : (markOwnTransitionDone st e.1).ownDone k = true := by
        rw [← @reportUp_ownDone s e.2 s.length e.1 (markOwnTransitionDone st e.1) k]
        exact hk
      rcases setFlag_eq_true.mp hod with rfl | hold
      · rw [← he.2]
        exact hsorted.1 ev hev
      · exact hodle k hold ev (List.mem_cons_of_mem _ hev)

theorem simInv_init (s : Scope) : SimInv s initState [] := by
  refine ⟨?_, ?_, ?_, ?_, ?_, ?_, ?_, ?_, ?_, ?_, ?_⟩ <;>
    simp [initState]

theorem afterEvents_inv {s : Scope} (hw : wellFormed s = true) (dir : Direction) :
    SimInv s (endState s (completionEvents s dir) initState) (afterEvents s dir) := by
  have h := runEvents_inv hw (completionEvents s dir) initState [] (simInv_init s)
    (completionEvents_sorted s dir)
    (fun e he => (mem_completionEvents hw).mp he)
    (by intro x hx; simp at hx)
    (by intro k hk; simp [initState] at hk)
  simpa [afterEvents] using h

theorem afterEvents_total {s : Scope} (hw : wellFormed s = true) (dir : Direction) :
    ∀ i, i < s.length →
      (endState s (completionEvents s dir) initState).fired i = true := by
  have hinv := afterEvents_inv hw dir
  have hod : ∀ i, i < s.length →
      (endState s (completionEvents s dir) initState).ownDone i = true := by
    intro i hi
    rw [endState_ownDone]
    right
    rw [(completionEvents_ids dir).mem_iff]
    exact (mem_dispatchOrder hw dir).mpr hi
  have hstrong : ∀ m i, i < s.length → s.length - i ≤ m →
      (endState s (completionEvents s dir) initState).fired i = true := by
    intro m
    induction m with
    | zero => intro i hi hm; omega
    | succ m ih =>
      intro i hi hm
      have hchildren : ∀ j ∈ childrenIdx s i,
          (endState s (completionEvents s dir) initState).fired j = true := by
        intro j hj
        have hji : i < j := lt_of_mem_childrenIdx hw hj
        have hjn : j < s.length := (mem_childrenIdx.mp hj).1
        exact ih j hjn (by omega)
      cases hf : (endState s (completionEvents s dir) initState).fired i with
      | true => rfl
      | false =>
        exact absurd (pendingChildren_eq_zero.mpr hchildren)
          (hinv.noEligible i hf (hod i hi))
  intro i hi
  exact hstrong s.length i hi (by omega)

end TransitionModel

namespace TransitionModel

theorem eq_snd_of_nodup_ids :
    ∀ {l : List (Nat × Nat)}, (l.map Prod.fst).Nodup →
      ∀ {j u u' : Nat}, (j, u) ∈ l → (j, u') ∈ l → u = u' := by
  intro l
  induction l with
  | nil => intro _ j u u' h; simp at h
  | cons x xs ih =>
    intro hnd j u u' h1 h2
    rw [List.map_cons, List.nodup_cons] at hnd
    rcases List.mem_cons.mp h1 with rfl | h1'
    · rcases List.mem_cons.mp h2 with h2h | h2'
      · exact ((Prod.mk.injEq _ _ _ _).mp h2h.symm).2
      · exact absurd (List.mem_map_of_mem Prod.fst h2') (by simpa using hnd.1)
    · rcases List.mem_cons.mp h2 with rfl | h2'
      · exact absurd (List.mem_map_of_mem Prod.fst h1') (by simpa using hnd.1)
      · exact ih hnd.2 h1' h2'

theorem afterEvents_desc_time {s : Scope} (hw : wellFormed s = true) (dir : Direction) :
    ∀ (a j : Nat), Reaches s a j → ∀ ta u, (a, ta) ∈ afterEvents s dir →
      (j, u) ∈ afterEvents s dir → u ≤ ta := by
  have hinv := afterEvents_inv hw dir
  intro a j hr
  induction hr with
  | refl =>
    intro ta u h1 h2
    rw [eq_snd_of_nodup_ids hinv.nodupLog h2 h1]
  | @step p j' hp hr' ih =>
    intro ta u h1 h2
    have hjn : j' < s.length := parentAt_lt_length hp
    have hpn : p < s.length := by
      have := parentAt_lt hw hp
      omega
    have hpfired : (endState s (completionEvents s dir) initState).fired p = true :=
      afterEvents_total hw dir p hpn
    have hpid : p ∈ (afterEvents s dir).map Prod.fst := (hinv.fired_iff p).mp hpfired
    obtain ⟨up, hup⟩ := mem_of_mem_ids hpid
    have hchild : j' ∈ childrenIdx s p := mem_childrenIdx.mpr ⟨hjn, hp⟩
    obtain ⟨u', hu', hle⟩ := hinv.childTime (p, up) hup j' hchild
    have : u = u' := eq_snd_of_nodup_ids hinv.nodupLog h2 hu'
    have hup_le : up ≤ ta := ih ta up h1 hup
    omega

theorem cycleAfterEvents_inv {s : Scope} (hw : wellFormed s = true) (dir : Direction)
    (cutoff : Option Nat) :
    ∃ st, SimInv s st (cycleAfterEvents s dir cutoff) := by
  cases cutoff with
  | none => exact ⟨_, afterEvents_inv hw dir⟩
  | some T =>
    refine ⟨endState s ((completionEvents s dir).takeWhile fun e => e.2 ≤ T) initState, ?_⟩
    have hsub : ((completionEvents s dir).takeWhile fun e => e.2 ≤ T).Sublist
        (completionEvents s dir) := (List.takeWhile_prefix _).sublist
    have h := runEvents_inv hw ((completionEvents s dir).takeWhile fun e => e.2 ≤ T)
      initState [] (simInv_init s)
      ((completionEvents_sorted s dir).sublist hsub)
      (fun e he => (mem_completionEvents hw).mp (hsub.mem he))
      (by intro x hx; simp at hx)
      (by intro k hk; simp [initState] at hk)
    simpa [cycleAfterEvents] using h

theorem dropWhile_time_gt {T : Nat} :
    ∀ {l : List (Nat × Nat)}, List.Pairwise (fun a b : Nat × Nat => a.2 ≤ b.2) l →
      ∀ x ∈ l.dropWhile (fun e => e.2 ≤ T), T < x.2 := by
  intro l
  induction l with
  | nil => intro _ x hx; simp [List.dropWhile] at hx
  | cons e es ih =>
    intro hp x hx
    rw [List.pairwise_cons] at hp
    rw [List.dropWhile_cons] at hx
    by_cases h : e.2 ≤ T
    · simp only [h, decide_True] at hx
      exact ih hp.2 x hx
    · simp only [h, decide_False] at hx
      rcases List.mem_cons.mp hx with rfl | hx'
      · omega
      · have := hp.1 x hx'
        omega

theorem beforeHook_ne_afterHook (dir : Direction) :
    beforeHookFor dir ≠ afterHookFor dir := by
  cases dir <;> decide

theorem hookDirection_beforeHook (dir : Direction) :
    hookDirection (beforeHookFor dir) = dir := by
  cases dir <;> rfl

theorem hookDirection_afterHook (dir : Direction) :
    hookDirection (afterHookFor dir) = dir := by
  cases dir <;> rfl

theorem occ_before (ids : List Nat) (i : Nat) (H k : HookKind) (t0 : Nat) :
    ((ids.map fun n => (⟨n, H, t0⟩ : HookEvent)).filter
        fun ev => ev.node == i && ev.hook == k).length
      = if H = k then ids.count i else 0 := by
  induction ids with
  | nil => simp
  | cons n ns ih =>
    rw [List.map_cons, List.filter_cons]
    by_cases hk : H = k
    · subst hk
      by_cases hn : n = i
      · subst hn
        simp only [BEq.refl, Bool.and_true, Bool.and_self, if_true]
        rw [List.length_cons, ih]
        simp [List.count_cons]
      · have : ((⟨n, H, t0⟩ : HookEvent).node == i && (⟨n, H, t0⟩ : HookEvent).hook == H)
            = false := by
          simp [hn]
        rw [this]
        simp only [Bool.false_eq_true, if_false]
        rw [ih]
        simp [List.count_cons, hn]
    · have : ((⟨n, H, t0⟩ : HookEvent).node == i && (⟨n, H, t0⟩ : HookEvent).hook == k)
          = false := by
        simp [hk]
      rw [this]
      simp only [Bool.false_eq_true, if_false]
      rw [ih]
      simp [hk]

theorem occ_after (l : List (Nat × Nat)) (i : Nat) (H k : HookKind) :
    ((l.map fun e => (⟨e.1, H, e.2⟩ : HookEvent)).filter
        fun ev => ev.node == i && ev.hook == k).length
      = if H = k then (l.map Prod.fst).count i else 0 := by
  induction l with
  | nil => simp
  | cons e es ih =>
    rw [List.map_cons, List.filter_cons]
    by_cases hk : H = k
    · subst hk
      by_cases hn : e.1 = i
      · have : ((⟨e.1, H, e.2⟩ : HookEvent).node == i && (⟨e.1, H, e.2⟩ : HookEvent).hook == H)
            = true := by
          simp [hn]
        rw [this]
        simp only [if_true]
        rw [List.length_cons, ih]
        simp [List.count_cons, hn]
      · have : ((⟨e.1, H, e.2⟩ : HookEvent).node == i && (⟨e.1, H, e.2⟩ : HookEvent).hook == H)
            = false := by
          simp [hn]
        rw [this]
        simp only [Bool.false_eq_true, if_false]
        rw [ih]
        simp [List.count_cons, hn]
    · have : ((⟨e.1, H, e.2⟩ : HookEvent).node == i && (⟨e.1, H, e.2⟩ : HookEvent).hook == k)
          = false := by
        simp [hk]
      rw [this]
      simp only [Bool.false_eq_true, if_false]
      rw [ih]
      simp [hk]

theorem count_le_one_of_nodup {l : List Nat} (h : l.Nodup) (a : Nat) : l.count a ≤ 1 :=
  List.nodup_iff_count_le_one.mp h a

end TransitionModel

namespace TransitionModel

/-- C1: On the 5-node scenario tree (0 = root 50ms, 1 = child-1 75ms,
2 = child-2 100ms, 3 = child-2-1 150ms, 4 = child-2-2 125ms), Enter fires
`beforeEnter` in the order [root, child-1, child-2, child-2-1, child-2-2]
and `afterEnter` in the order [child-1, child-2-2, child-2-1, child-2,
root]; Leave fires `beforeLeave` in the order [child-1, child-2-1,
child-2-2, child-2, root] and `afterLeave` in the order [child-1,
child-2-2, child-2-1, child-2, root]. -/
theorem transition_event_order_scenario :
    dispatchOrder scenarioScope Direction.enter = [0, 1, 2, 3, 4] ∧
    (afterEvents scenarioScope Direction.enter).map Prod.fst = [1, 4, 3, 2, 0] ∧
    dispatchOrder scenarioScope Direction.leave = [1, 3, 4, 2, 0] ∧
    (afterEvents scenarioScope Direction.leave).map Prod.fst = [1, 4, 3, 2, 0] := by
  decide

/-- C2: For every tree and both directions, a node's `after*` hook fires
only when its own transition is done and `pendingChildren = 0`: each node
fires exactly once, never before its own duration elapsed, strictly after
each of its children, with a timestamp dominating every descendant's
timestamp, and a childless node fires exactly at its own completion
time. -/
theorem transition_completion_gating (s : Scope) (dir : Direction)
    (hw : wellFormed s = true) : completionGatingSpec s dir := by
  have hinv := afterEvents_inv hw dir
  have htotal := afterEvents_total hw dir
  refine ⟨?_, hinv.nodupLog, hinv.durLe, hinv.gateLogIdx, ?_, ?_⟩
  · intro i hi
    exact mem_of_mem_ids ((hinv.fired_iff i).mp (htotal i hi))
  · intro e he j u hju hr
    exact afterEvents_desc_time hw dir e.1 j hr e.2 u (by rw [Prod.mk.eta]; exact he) hju
  · intro i hi hleaf
    have hod : (endState s (completionEvents s dir) initState).ownDone i = true := by
      rw [endState_ownDone]
      right
      rw [(completionEvents_ids dir).mem_iff]
      exact (mem_dispatchOrder hw dir).mpr hi
    exact hinv.leafLogged i hod hleaf

theorem transition_completion_gating_witness :
    wellFormed scenarioScope = true ∧ completionGatingSpec scenarioScope Direction.enter :=
  ⟨by decide, transition_completion_gating scenarioScope Direction.enter (by decide)⟩

/-- C3: For every tree and every ancestor/descendant pair, the Enter
broadcast dispatches the ancestor's `beforeEnter` before the descendant's
(pre-order), and the Leave broadcast dispatches the descendant's
`beforeLeave` before the ancestor's (post-order), so `beforeEnter`
positions are increasing and `beforeLeave` positions decreasing along
every root-to-leaf path. -/
theorem transition_start_order (s : Scope) (hw : wellFormed s = true)
    (i j : Nat) (hr : Reaches s j i) (hne : i ≠ j) (hi : i < s.length) :
    (dispatchOrder s Direction.enter).indexOf j
        < (dispatchOrder s Direction.enter).indexOf i ∧
    (dispatchOrder s Direction.leave).indexOf i
        < (dispatchOrder s Direction.leave).indexOf j :=
  ⟨travOrder_before_enter hw hr hne hi, travOrder_before_leave hw hr hne hi⟩

theorem transition_start_order_witness :
    wellFormed scenarioScope = true ∧ Reaches scenarioScope 0 1 ∧ (1 : Nat) ≠ 0 ∧
      1 < scenarioScope.length ∧
      ((dispatchOrder scenarioScope Direction.enter).indexOf 0
          < (dispatchOrder scenarioScope Direction.enter).indexOf 1 ∧
        (dispatchOrder scenarioScope Direction.leave).indexOf 1
          < (dispatchOrder scenarioScope Direction.leave).indexOf 0) := by
  have hr : Reaches scenarioScope 0 1 := Reaches.step (by decide) (Reaches.refl 0)
  exact ⟨by decide, hr, by decide, by decide,
    transition_start_order scenarioScope (by decide) 1 0 hr (by decide) (by decide)⟩

/-- C4: In every direction-cycle — interrupted at any time or not — each
node fires each hook at most once, only hooks of the cycle's own direction
fire, and a direction flip at time `T` merely truncates the cycle's log:
the already-fired hooks form a prefix of the uninterrupted log and every
dropped hook would have fired strictly after `T`, so nothing is retracted
or replayed and no second `after*` firing can occur. -/
theorem transition_interruption_safety (s : Scope) (dir : Direction) (cutoff : Option Nat)
    (hw : wellFormed s = true) : interruptionSafeSpec s dir cutoff := by
  obtain ⟨stc, hinvc⟩ := cycleAfterEvents_inv hw dir cutoff
  refine ⟨?_, ?_, ?_⟩
  · intro i k
    rw [hookOccurrences, cycleLog, List.filter_append, List.length_append]
    rw [occ_before (dispatchOrder s dir) i (beforeHookFor dir) k 0]
    rw [occ_after (cycleAfterEvents s dir cutoff) i (afterHookFor dir) k]
    by_cases hbk : beforeHookFor dir = k
    · have hak : ¬afterHookFor dir = k := fun h =>
        beforeHook_ne_afterHook dir (hbk.trans h.symm)
      rw [if_pos hbk, if_neg hak]
      have := count_le_one_of_nodup (dispatchOrder_nodup hw dir) i
      omega
    · rw [if_neg hbk]
      by_cases hak : afterHookFor dir = k
      · rw [if_pos hak]
        have := count_le_one_of_nodup hinvc.nodupLog i
        omega
      · rw [if_neg hak]
        omega
  · intro ev hev
    rw [cycleLog] at hev
    rcases List.mem_append.mp hev with h | h
    · rw [List.mem_map] at h
      obtain ⟨i', _, rfl⟩ := h
      exact hookDirection_beforeHook dir
    · rw [List.mem_map] at h
      obtain ⟨e', _, rfl⟩ := h
      exact hookDirection_afterHook dir
  · intro T
    have hsplitev : (completionEvents s dir).takeWhile (fun e => e.2 ≤ T)
        ++ (completionEvents s dir).dropWhile (fun e => e.2 ≤ T)
        = completionEvents s dir := List.takeWhile_append_dropWhile _ _
    have hrun : runEvents s (completionEvents s dir) initState
        = runEvents s ((completionEvents s dir).takeWhile fun e => e.2 ≤ T) initState
          ++ runEvents s ((completionEvents s dir).dropWhile fun e => e.2 ≤ T)
            (endState s ((completionEvents s dir).takeWhile fun e => e.2 ≤ T)
              initState) := by
      conv =>
        lhs
        rw [← hsplitev]
      rw [runEvents_append]
    refine ⟨(runEvents s ((completionEvents s dir).dropWhile fun e => e.2 ≤ T)
        (endState s ((completionEvents s dir).takeWhile fun e => e.2 ≤ T)
          initState)).map fun e => ⟨e.1, afterHookFor dir, e.2⟩, ?_, ?_⟩
    · rw [cycleLog, cycleLog]
      simp only [cycleAfterEvents]
      rw [hrun, List.map_append, List.append_assoc]
    · intro ev hev
      rw [List.mem_map] at hev
      obtain ⟨e', he', rfl⟩ := hev
      obtain ⟨evd, hevd, heq⟩ := mem_runEvents_time s _ _ e' he'
      have hgt := dropWhile_time_gt (completionEvents_sorted s dir) evd hevd
      show T < e'.2
      rw [heq]
      exact hgt

theorem transition_interruption_safety_witness :
    wellFormed scenarioScope = true ∧
      interruptionSafeSpec scenarioScope Direction.enter (some 100) :=
  ⟨by decide,
    transition_interruption_safety scenarioScope Direction.enter (some 100) (by decide)⟩

/-- C7: In a tree whose every node has computed duration `0`, the
completion detector resolves immediately for every node, every `after*`
hook fires with timestamp `0` — synchronously, within the same dispatch
pass, with no timer tick — every node still resolves, and the bottom-up
hook order is preserved. -/
theorem transition_zero_duration (s : Scope) (dir : Direction)
    (hw : wellFormed s = true) (hz : ∀ i, i < s.length → durAt s i = 0) :
    zeroDurationSpec s dir := by
  have hinv := afterEvents_inv hw dir
  have htotal := afterEvents_total hw dir
  have htimes : ∀ e ∈ afterEvents s dir, e.2 = 0 := by
    intro e he
    obtain ⟨k, hk, hek⟩ := hinv.timeOrigin e he
    rw [hek, hz k hk]
  refine ⟨?_, htimes, ?_, hinv.gateLogIdx⟩
  · intro i hi
    rw [hz i hi]
    rfl
  · intro i hi
    obtain ⟨u, hu⟩ := mem_of_mem_ids ((hinv.fired_iff i).mp (htotal i hi))
    have hu0 : u = 0 := htimes (i, u) hu
    rw [← hu0]
    exact hu

theorem transition_zero_duration_witness :
    wellFormed zeroScope = true ∧ (∀ i, i < zeroScope.length → durAt zeroScope i = 0) ∧
      zeroDurationSpec zeroScope Direction.enter :=
  ⟨by decide, by decide,
    transition_zero_duration zeroScope Direction.enter (by decide) (by decide)⟩

end TransitionModel

namespace TransitionModel

/-- C5: A registered node with `renderStrategy = Hidden` that completes a
full Leave cycle stays registered and rests hidden (`hidden` attribute and
`display: none`) in the `Left` stage; a subsequent Enter re-runs the enter
transition on the same node — same registration, no re-registration — and
removes the hidden styling. -/
theorem hidden_strategy_retains_node (v : NodeView) (hreg : v.registered = true) :
    hiddenRetentionSpec v :=
  ⟨hreg, rfl, rfl, rfl, rfl, hreg, rfl, rfl, rfl, rfl⟩

theorem hidden_strategy_retains_node_witness :
    (⟨true, 1, Stage.entered, false, false⟩ : NodeView).registered = true ∧
      hiddenRetentionSpec ⟨true, 1, Stage.entered, false, false⟩ :=
  ⟨rfl, hidden_strategy_retains_node ⟨true, 1, Stage.entered, false, false⟩ rfl⟩

/-- C6: On first mount in the shown state, `appear = true` runs an initial
Entering pass that applies the `enter` and `enterFrom` start classes (and
fires `beforeEnter`); `appear = false` jumps straight to `Entered` with no
class mutation and no hook firing. -/
theorem appear_gate_initial_mount :
    ∀ (enterClasses enterFromClasses : List String),
      initialShownMount true enterClasses enterFromClasses
        = ⟨Stage.entering, enterClasses ++ enterFromClasses, [HookKind.beforeEnter]⟩ ∧
      initialShownMount false enterClasses enterFromClasses
        = ⟨Stage.entered, [], []⟩ :=
  fun _ _ => ⟨rfl, rfl⟩

/-- C8: Misuse errors surface synchronously: resolving a
`Transition.Child` without an enclosing scope returns the missing-parent
error, and rendering a `Transition` without the required `show`
configuration returns the missing-show error, while well-configured nodes
succeed. -/
theorem misuse_errors_synchronous :
    renderTransitionChild none = Except.error missingParentMessage ∧
    renderTransitionRoot none = Except.error missingShowMessage ∧
    (∀ h : Nat, renderTransitionChild (some h) = Except.ok h) ∧
    (∀ b : Bool, renderTransitionRoot (some b) = Except.ok b) :=
  ⟨rfl, rfl, fun _ => rfl, fun _ => rfl⟩

end TransitionModel

/-- C9: The React and Vue Dialog implementations compute identical guard
predicates from the same inputs, and each guard has the claimed closed
form: escape-to-close iff the dialog is open with no nested dialogs;
scroll lock iff open, not closing, and without a parent dialog;
inert-others iff the dialog is enabled, not closing, and without a parent
dialog. -/
theorem dialog_guard_equivalence :
    ∀ (dsOpen enabled isClosing hasParent hasNested : Bool),
      ReactDialog.escapeToCloseEnabled hasNested dsOpen
        = VueDialog.escapeToCloseEnabled hasNested dsOpen ∧
      ReactDialog.scrollLockEnabled isClosing dsOpen hasParent
        = VueDialog.scrollLockEnabled isClosing dsOpen hasParent ∧
      ReactDialog.inertOthersEnabled hasParent isClosing enabled
        = VueDialog.inertOthersEnabled hasParent isClosing enabled ∧
      ReactDialog.escapeToCloseEnabled hasNested dsOpen = (dsOpen && !hasNested) ∧
      ReactDialog.scrollLockEnabled isClosing dsOpen hasParent
        = (dsOpen && !isClosing && !hasParent) ∧
      ReactDialog.inertOthersEnabled hasParent isClosing enabled
        = (enabled && !isClosing && !hasParent) ∧
      VueDialog.escapeToCloseEnabled hasNested dsOpen = (dsOpen && !hasNested) ∧
      VueDialog.scrollLockEnabled isClosing dsOpen hasParent
        = (dsOpen && !isClosing && !hasParent) ∧
      VueDialog.inertOthersEnabled hasParent isClosing enabled
        = (enabled && !isClosing && !hasParent) := by
  decide

theorem dialog_guard_equivalence_witness :
    ReactDialog.escapeToCloseEnabled false true
      = VueDialog.escapeToCloseEnabled false true :=
  (dialog_guard_equivalence true true false false false).1

/-- C10: In both the React and the Vue dialog overlay click handler,
`close()` runs only when the click's target is the overlay itself; a
bubbled click from a descendant never closes; and a direct click on a
non-disabled overlay prevents default, stops propagation, and calls
`close()` exactly once. -/
theorem overlay_click_close :
    ∀ (targetIsCurrent disabled : Bool),
      ((ReactDialog.overlayHandleClick ⟨targetIsCurrent, disabled⟩).closeCalls ≥ 1 →
        targetIsCurrent = true) ∧
      ((VueDialog.overlayHandleClick ⟨targetIsCurrent, disabled⟩).closeCalls ≥ 1 →
        targetIsCurrent = true) ∧
      (targetIsCurrent = false →
        ReactDialog.overlayHandleClick ⟨targetIsCurrent, disabled⟩ = ⟨false, false, 0⟩ ∧
        VueDialog.overlayHandleClick ⟨targetIsCurrent, disabled⟩ = ⟨false, false, 0⟩) ∧
      ReactDialog.overlayHandleClick ⟨true, false⟩ = ⟨true, true, 1⟩ ∧
      VueDialog.overlayHandleClick ⟨true, false⟩ = ⟨true, true, 1⟩ := by
  decide

theorem overlay_click_close_witness :
    ReactDialog.overlayHandleClick ⟨true, false⟩ = ⟨true, true, 1⟩ :=
  (overlay_click_close true false).2.2.2.1
